import Mathlib

/-!
Shallow embedding of `src/sud.c`, a bitmask-based 9×9 Sudoku solver, together
with proofs about its solver engine.

Cells are machine integers used as bit vectors (bit 0 = solved flag, bits 1–9 =
candidate values); we model them as `Nat`.  The C expression `cell & mask` with
`mask = ~(source & O_CELL)` clears the source's value bits from `cell`; over
`Nat` this is `cell ^^^ (cell &&& vbits)` with `vbits = source &&& O_CELL`,
which agrees with the 32-bit computation on every cell value.

Imperative loops with early exit (`reduce`, `reduce_grid`) become `List.foldl`
over the 81 coordinates with an explicit (grid, counter, failed) state; once
`failed` is set the step function passes the state through unchanged, exactly
as the C `return -1` prevents any further mutation.  A C assignment
`*cell = v` that stores the value already present is modelled as not writing,
which leaves the grid observably identical.

The C `do { r = reduce_grid(&wg); ... } while (r > 0)` loop terminates because
every counted change strictly decreases a finite measure (`gridWeight`); we
model it as the fuelled `reduceLoopF` run with provably sufficient fuel
(`reduceLoop`), and recover the loop equation as a theorem.  The recursive
solver `try` is called `trySolve` here (`try` is a reserved word in Lean) and
is likewise fuelled; the termination claim is settled by proving the result
independent of the fuel once it exceeds the number of unsolved cells.
-/

set_option maxRecDepth 8192

namespace Sud

/-- A cell coordinate: row and column, each in `0..8`. -/
abbrev Pos : Type := Fin 9 × Fin 9

/-- The 81 cell coordinates in row-major order, the order of the C nested
`for (i) for (j)` loops. -/
def posList : List Pos :=
  (List.finRange 9).flatMap fun i => (List.finRange 9).map fun j => (i, j)

/-- The state of a Sudoku game: `struct grid { int cells[9][9]; int solved_counter; }`. -/
structure Grid where
  cells : Pos → Nat
  solved_counter : Nat

/-- `O_CELL`: an open cell with all nine candidate bits set (0b1111111110). -/
def O_CELL : Nat := 1022

/-- `SOLVED`: bit 0 of a cell flags it as solved. -/
def SOLVED : Nat := 1

/-- `grid_zero`: every cell open, counter 0. -/
def grid_zero : Grid := { cells := fun _ => O_CELL, solved_counter := 0 }

/-- `set_value(value)`: the bit vector `1<<value | SOLVED`. -/
def set_value (value : Nat) : Nat := (1 <<< value) ||| SOLVED

/-- `get_value(cell)`: 0 if unsolved, otherwise the index of the first set
candidate bit (10 if a solved cell has no candidate bit, as in the C loop). -/
def get_value (cell : Nat) : Nat :=
  if cell &&& SOLVED = 0 then 0
  else
    match (List.range' 1 9).find? (fun i => cell &&& (1 <<< i) != 0) with
    | some i => i
    | none => 10

/-- The candidate count computed by the `for (i=1; i<=MAX_VAL; i++)` loops in
`mark_if_solved` and `choose_target_cell`. -/
def possCount (cell : Nat) : Nat :=
  (List.range' 1 9).countP fun i => cell &&& (1 <<< i) != 0

/-- `mark_if_solved(cell)`: set the solved flag if exactly one candidate bit is set. -/
def mark_if_solved (cell : Nat) : Nat :=
  if possCount cell = 1 then cell ||| SOLVED else cell

/-- `cell & ~vbits` computed over `Nat`: clear the bits of `vbits` from `cell`. -/
def clearPoss (cell vbits : Nat) : Nat := cell ^^^ (cell &&& vbits)

/-- The row/column/region condition of `reduce`:
`(i==row) || (j==column) || (row/3 == i/3 && column/3 == j/3)`. -/
def isPeer (row col : Fin 9) (p : Pos) : Bool :=
  p.1 == row || p.2 == col ||
    (row.val / 3 == p.1.val / 3 && col.val / 3 == p.2.val / 3)

/-- One iteration of the nested loop body of `reduce`, acting on the state
(grid, `changed`, failed).  After the C `return -1` (failed = true) nothing
further happens.  The write `*cell = mark_if_solved(*cell & mask)` is performed
only when it changes the cell, which is observably the same. -/
def reduceStep (row col : Fin 9) (vbits : Nat) (st : Grid × Nat × Bool) (p : Pos) :
    Grid × Nat × Bool :=
  if st.2.2 then st
  else if p = (row, col) then st
  else if isPeer row col p && (clearPoss (st.1.cells p) vbits != 0) then
    let prev := st.1.cells p
    let next := mark_if_solved (clearPoss prev vbits)
    let changed := if next = prev then st.2.1 else st.2.1 + 1
    let g' : Grid :=
      if next = prev then st.1
      else
        { cells := Function.update st.1.cells p next,
          solved_counter :=
            if next &&& SOLVED ≠ 0 then st.1.solved_counter + 1
            else st.1.solved_counter }
    (g', changed, next == 0 || next == 1)
  else st

/-- The return convention shared by `reduce` and `reduce_grid`: the final loop
state yields the mutated grid together with −1 if the loop aborted, otherwise
the accumulated count. -/
def reduceFin (st : Grid × Nat × Bool) : Grid × Int :=
  if st.2.2 then (st.1, -1) else (st.1, (st.2.1 : Int))

/-- `reduce(g, row, column)`: clear a solved source cell's value from all its
peers.  Returns the possibly mutated grid and the C return value
(−1 on contradiction, otherwise the number of cells changed). -/
def reduce (g : Grid) (row col : Fin 9) : Grid × Int :=
  if g.cells (row, col) &&& SOLVED = 0 then (g, 0)
  else
    reduceFin
      (posList.foldl (reduceStep row col (g.cells (row, col) &&& O_CELL)) (g, 0, false))

/-- One iteration of the loop body of `reduce_grid` on (grid, `reductions`, failed). -/
def reduceGridStep (st : Grid × Nat × Bool) (p : Pos) : Grid × Nat × Bool :=
  if st.2.2 then st
  else
    let r := reduce st.1 p.1 p.2
    if r.2 = -1 then (r.1, st.2.1, true)
    else (r.1, st.2.1 + r.2.toNat, false)

/-- `reduce_grid(g)`: apply `reduce` at every cell, returning −1 as soon as one
application signals a contradiction, otherwise the total change count. -/
def reduce_grid (g : Grid) : Grid × Int :=
  reduceFin (posList.foldl reduceGridStep (g, 0, false))

/-- Weight of one cell: candidate count plus one if the solved flag is clear.
Every counted change of `reduce` strictly decreases it. -/
def cellWeight (cell : Nat) : Nat := possCount cell + (1 - (cell &&& SOLVED))

/-- Total weight of a grid, the termination measure of the propagation loop. -/
def gridWeight (g : Grid) : Nat := (posList.map fun p => cellWeight (g.cells p)).sum

/-- The `do { r = reduce_grid(&wg); ... } while (r > 0)` loop of `try`, with
explicit fuel.  `none` = fuel ran out (never happens with enough fuel),
`some none` = a pass returned −1, `some (some g)` = fixpoint reached. -/
def reduceLoopF : Nat → Grid → Option (Option Grid)
  | 0, _ => none
  | fuel + 1, g =>
    if (reduce_grid g).2 = -1 then some none
    else if (reduce_grid g).2 = 0 then some (some (reduce_grid g).1)
    else reduceLoopF fuel (reduce_grid g).1

/-- The propagation-to-fixpoint loop of `try`, run with sufficient fuel. -/
def reduceLoop (g : Grid) : Option Grid :=
  (reduceLoopF (gridWeight g + 1) g).getD none

/-- `choose_target_cell(g)`: scan all cells in row-major order, skip solved
ones, and keep the cell with the fewest candidates (strictly fewer than the
best so far, starting from `t = MAX_VAL = 9` and target (0,0)). -/
def choose_target_cell (g : Grid) : Pos :=
  (posList.foldl
    (fun st p =>
      if g.cells p &&& SOLVED ≠ 0 then st
      else
        let a := possCount (g.cells p)
        if a < st.1 then (a, p) else st)
    (9, ((0 : Fin 9), (0 : Fin 9)))).2

/-- The inner `while ((in = getchar()))` loop of `read_grid` for row `i`,
reading byte values (`[]` = end of input, where `getchar` keeps returning EOF).
Returns `none` when the C loop would never terminate (EOF with `j ≥ 9`),
otherwise the updated grid, the remaining input, and whether the row ended
normally (`true`) or a bad character forced `return 0` (`false`). -/
def readRow (g : Grid) (i : Fin 9) : Nat → List Nat → Option (Grid × List Nat × Bool)
  | j, [] => if j < 9 then some (g, [], false) else none
  | j, c :: rest =>
    if c = 0 then some (g, rest, true)
    else if c = 10 then some (g, rest, true)
    else if c = 32 || c = 45 then readRow g i (j + 1) rest
    else if h : 9 ≤ j then readRow g i (j + 1) rest
    else if 49 ≤ c ∧ c ≤ 57 then
      readRow
        { cells := Function.update g.cells (i, ⟨j, by omega⟩) (set_value (c - 48)),
          solved_counter := g.solved_counter + 1 }
        i (j + 1) rest
    else some (g, rest, false)

/-- The outer `for (i=0; i<ROWS; i++)` loop of `read_grid`. -/
def readRows (g : Grid) (input : List Nat) : List (Fin 9) → Option (Grid × Bool)
  | [] => some (g, true)
  | i :: is =>
    match readRow g i 0 input with
    | none => none
    | some (g', rest, true) => readRows g' rest is
    | some (g', _, false) => some (g', false)

/-- `read_grid(g)`: read nine rows of clues from the given byte stream.
The `Bool` is the C return value (`true` = 1, `false` = 0); `none` marks the
one input shape on which the C loop does not terminate. -/
def read_grid (g : Grid) (input : List Nat) : Option (Grid × Bool) :=
  readRows g input (List.finRange 9)

/-- The `for (k=1; k<=MAX_VAL; k++)` guessing loop of `try`: try each candidate
value of the target cell in turn, stopping at the first success. -/
def tryGuess (next : Grid → Option Grid) (wg : Grid) (t : Pos) (wc : Nat) : Option Grid :=
  (List.range' 1 9).foldl
    (fun acc k =>
      match acc with
      | some og => some og
      | none =>
        if wc &&& (1 <<< k) != 0 then
          next { cells := Function.update wg.cells t (set_value k),
                 solved_counter := wg.solved_counter }
        else none)
    none

/-- `try(ig, og)` from the C source (named `trySolve` because `try` is reserved
in Lean), with fuel bounding the recursion depth.  `some og` models success
with `og` copied to the output grid; `none` models returning 0 with the output
grid untouched. -/
def trySolve : Nat → Grid → Option Grid
  | 0, _ => none
  | fuel + 1, ig =>
    match reduceLoop ig with
    | none => none
    | some wg =>
      if wg.solved_counter = 9 * 9 then some wg
      else
        tryGuess (trySolve fuel)
          { cells := wg.cells, solved_counter := wg.solved_counter + 1 }
          (choose_target_cell wg) (wg.cells (choose_target_cell wg))

/-! ### Bit-level helper lemmas -/

theorem one_shiftLeft (v : Nat) : 1 <<< v = 2 ^ v := by
  rw [Nat.shiftLeft_eq, one_mul]

theorem land_two_pow_of_testBit_false {c v : Nat} (h : c.testBit v = false) :
    c &&& 2 ^ v = 0 :=
  Nat.eq_of_testBit_eq fun i => by
    rw [Nat.testBit_land, Nat.testBit_two_pow, Nat.zero_testBit]
    rcases eq_or_ne v i with rfl | hvi
    · simp [h]
    · simp [hvi]

theorem land_two_pow_of_testBit_true {c v : Nat} (h : c.testBit v = true) :
    c &&& 2 ^ v = 2 ^ v :=
  Nat.eq_of_testBit_eq fun i => by
    rw [Nat.testBit_land, Nat.testBit_two_pow]
    rcases eq_or_ne v i with rfl | hvi
    · simp [h]
    · simp [hvi]

theorem hasBit_eq_testBit (c v : Nat) : (c &&& (1 <<< v) != 0) = c.testBit v := by
  rw [one_shiftLeft]
  rcases h : c.testBit v with _ | _
  · simp [land_two_pow_of_testBit_false h]
  · have h2 : (2 : Nat) ^ v ≠ 0 := by positivity
    simp [land_two_pow_of_testBit_true h, h2]

theorem land_solved_eq_zero_iff (c : Nat) : c &&& SOLVED = 0 ↔ c.testBit 0 = false := by
  show c &&& 1 = 0 ↔ _
  rcases h : c.testBit 0 with _ | _
  · rw [show (1 : Nat) = 2 ^ 0 from rfl, land_two_pow_of_testBit_false h]
    simp
  · rw [show (1 : Nat) = 2 ^ 0 from rfl, land_two_pow_of_testBit_true h]
    simp

theorem land_solved_ne_zero_iff (c : Nat) : c &&& SOLVED ≠ 0 ↔ c.testBit 0 = true := by
  rw [Ne, land_solved_eq_zero_iff]
  rcases c.testBit 0 with _ | _ <;> simp

theorem testBit_clearPoss (c b v : Nat) :
    (clearPoss c b).testBit v = (c.testBit v && !b.testBit v) := by
  unfold clearPoss
  rw [Nat.testBit_xor, Nat.testBit_land]
  cases c.testBit v <;> cases b.testBit v <;> rfl

theorem testBit_lor_one (c v : Nat) :
    (c ||| 1).testBit v = (c.testBit v || decide (v = 0)) := by
  rw [Nat.testBit_lor, show (1 : Nat) = 2 ^ 0 from rfl, Nat.testBit_two_pow]
  cases c.testBit v <;> simp [eq_comm]

theorem testBit_mark_if_solved (c v : Nat) (hv : v ≠ 0) :
    (mark_if_solved c).testBit v = c.testBit v := by
  unfold mark_if_solved
  split
  · rw [show SOLVED = 1 from rfl, testBit_lor_one]
    simp [hv]
  · rfl

theorem testBit_mark_if_solved_zero (c : Nat) :
    (mark_if_solved c).testBit 0 = (c.testBit 0 || decide (possCount c = 1)) := by
  unfold mark_if_solved
  split <;> rename_i h
  · rw [show SOLVED = 1 from rfl, testBit_lor_one]
    simp [h]
  · simp [h]

theorem testBit_1023 (i : Nat) : (1023 : Nat).testBit i = decide (i < 10) := by
  rw [show (1023 : Nat) = 2 ^ 10 - 1 from rfl, Nat.testBit_two_pow_sub_one]

/-- A cell value fits in the 10 bits the program uses. -/
def lowBits (c : Nat) : Prop := c &&& 1023 = c

theorem lowBits_iff (c : Nat) : lowBits c ↔ ∀ i, 10 ≤ i → c.testBit i = false := by
  constructor
  · intro h i hi
    conv_lhs => rw [← h]
    rw [Nat.testBit_land, testBit_1023]
    simp [Nat.not_lt.2 hi]
  · intro h
    exact Nat.eq_of_testBit_eq fun i => by
      rw [Nat.testBit_land, testBit_1023]
      rcases Nat.lt_or_ge i 10 with hi | hi
      · simp [hi]
      · simp [h i hi, Nat.not_lt.2 hi]

theorem lowBits_le (c : Nat) (h : lowBits c) : c ≤ 1023 := by
  conv_lhs => rw [← h]
  exact Nat.and_le_right

/-! ### countP and sum helper lemmas -/

theorem countP_lt_of_witness {α : Type} (p q : α → Bool) (l : List α)
    (hmono : ∀ a ∈ l, p a = true → q a = true)
    (a : α) (ha : a ∈ l) (hq : q a = true) (hp : p a = false) :
    l.countP p < l.countP q := by
  induction l with
  | nil => cases ha
  | cons b l ih =>
    have hmono' : ∀ x ∈ l, p x = true → q x = true := fun x hx =>
      hmono x (List.mem_cons_of_mem b hx)
    rcases List.mem_cons.1 ha with heq | hmem
    · subst heq
      rw [List.countP_cons_of_pos q _ hq, List.countP_cons_of_neg p _ (by simp [hp])]
      exact Nat.lt_succ_of_le (List.countP_mono_left hmono')
    · have hlt := ih hmono' hmem
      rcases hb : p b with _ | _
      · rw [List.countP_cons_of_neg p _ (by simp [hb])]
        rcases hqb : q b with _ | _
        · rw [List.countP_cons_of_neg q _ (by simp [hqb])]
          exact hlt
        · rw [List.countP_cons_of_pos q _ hqb]
          exact Nat.lt_succ_of_lt hlt
      · rw [List.countP_cons_of_pos p _ hb,
          List.countP_cons_of_pos q _ (hmono b (List.mem_cons_self b l) hb)]
        exact Nat.succ_lt_succ hlt

theorem countP_eq_one_elim {α : Type} (p : α → Bool) (l : List α)
    (h : l.countP p = 1) :
    ∃ a ∈ l, p a = true ∧ ∀ b ∈ l, p b = true → b = a := by
  rw [List.countP_eq_length_filter] at h
  obtain ⟨a, ha⟩ := List.length_eq_one.1 h
  have hmem : a ∈ List.filter p l := by rw [ha]; exact List.mem_singleton_self a
  obtain ⟨hal, hap⟩ := List.mem_filter.1 hmem
  refine ⟨a, hal, hap, fun b hb hpb => ?_⟩
  have hbf : b ∈ List.filter p l := List.mem_filter.2 ⟨hb, hpb⟩
  rw [ha] at hbf
  exact List.mem_singleton.1 hbf

theorem countP_add_compl {α : Type} (p : α → Bool) (l : List α) :
    l.countP p + l.countP (fun a => !p a) = l.length := by
  induction l with
  | nil => rfl
  | cons b l ih =>
    rcases hb : p b with _ | _
    · rw [List.countP_cons_of_neg p _ (by simp [hb]),
        List.countP_cons_of_pos (fun a => !p a) _ (by simp [hb]), List.length_cons]
      omega
    · rw [List.countP_cons_of_pos p _ hb,
        List.countP_cons_of_neg (fun a => !p a) _ (by simp [hb]), List.length_cons]
      omega

theorem countP_eq_add_of_imp {α : Type} (p q : α → Bool) (l : List α)
    (h : ∀ a ∈ l, p a = true → q a = true) :
    l.countP q = l.countP p + l.countP (fun a => q a && !p a) := by
  induction l with
  | nil => rfl
  | cons b l ih =>
    have h' : ∀ a ∈ l, p a = true → q a = true := fun a ha => h a (List.mem_cons_of_mem b ha)
    rcases hb : p b with _ | _
    · rcases hqb : q b with _ | _
      · rw [List.countP_cons_of_neg q _ (by simp [hqb]),
          List.countP_cons_of_neg p _ (by simp [hb]),
          List.countP_cons_of_neg _ _ (by simp [hb, hqb]), ih h']
      · rw [List.countP_cons_of_pos q _ hqb,
          List.countP_cons_of_neg p _ (by simp [hb]),
          List.countP_cons_of_pos _ _ (by simp [hb, hqb]), ih h']
        omega
    · rw [List.countP_cons_of_pos q _ (h b (List.mem_cons_self b l) hb),
        List.countP_cons_of_pos p _ hb,
        List.countP_cons_of_neg _ _ (by simp [hb]), ih h']
      omega

theorem sum_map_update {α : Type} (l : List α) (f g : α → Nat) (a : α)
    (hnd : l.Nodup) (ha : a ∈ l) (hoff : ∀ b ∈ l, b ≠ a → f b = g b) :
    (l.map f).sum + g a = (l.map g).sum + f a := by
  induction l with
  | nil => cases ha
  | cons b l ih =>
    rcases List.nodup_cons.1 hnd with ⟨hbl, hnd'⟩
    rcases List.mem_cons.1 ha with heq | hmem
    · subst heq
      have hcong : ∀ c ∈ l, f c = g c := fun c hc =>
        hoff c (List.mem_cons_of_mem a hc) (fun hceq => hbl (hceq ▸ hc))
      have hmap : l.map f = l.map g := List.map_congr_left hcong
      rw [List.map_cons, List.map_cons, hmap, List.sum_cons, List.sum_cons]
      omega
    · have hba : b ≠ a := fun hh => hbl (hh ▸ hmem)
      have hfb : f b = g b := hoff b (List.mem_cons_self b l) hba
      have hrec := ih hnd' hmem (fun c hc hca => hoff c (List.mem_cons_of_mem b hc) hca)
      rw [List.map_cons, List.map_cons, List.sum_cons, List.sum_cons, hfb]
      omega

theorem countP_congr_update {α : Type} (l : List α) (p q : α → Bool) (a : α)
    (hoff : ∀ b ∈ l, b ≠ a → p b = q b) (hnd : l.Nodup) (ha : a ∈ l) :
    l.countP p + (if q a then 1 else 0) = l.countP q + (if p a then 1 else 0) := by
  induction l with
  | nil => cases ha
  | cons b l ih =>
    rcases List.nodup_cons.1 hnd with ⟨hbl, hnd'⟩
    rcases List.mem_cons.1 ha with heq | hmem
    · subst heq
      have hcong : ∀ c ∈ l, p c = q c := fun c hc =>
        hoff c (List.mem_cons_of_mem a hc) (fun hceq => hbl (hceq ▸ hc))
      have : l.countP p = l.countP q := List.countP_congr (fun c hc => by rw [hcong c hc])
      rcases hpa : p a with _ | _ <;> rcases hqa : q a with _ | _ <;>
        simp [List.countP_cons, hpa, hqa, this] <;> omega
    · have hba : b ≠ a := fun hh => hbl (hh ▸ hmem)
      have hpb : p b = q b := hoff b (List.mem_cons_self b l) hba
      have hrec := ih (fun c hc hca => hoff c (List.mem_cons_of_mem b hc) hca) hnd' hmem
      rcases hb : q b with _ | _ <;>
        simp [List.countP_cons, hb, hpb ▸ hb, hpb] <;> omega

/-! ### Facts about the coordinate list and well-formed grids -/

theorem posList_nodup : posList.Nodup := by decide

theorem mem_posList (p : Pos) : p ∈ posList := by
  revert p; decide

/-- Strict row-major order on coordinates. -/
def rmLt (p q : Pos) : Prop :=
  p.1.val < q.1.val ∨ (p.1.val = q.1.val ∧ p.2.val < q.2.val)

instance : DecidableRel rmLt := fun p q => by
  unfold rmLt
  infer_instance

theorem posList_pairwise_rmLt : List.Pairwise rmLt posList := by decide

theorem rmLt_asymm {p q : Pos} (h : rmLt p q) : ¬rmLt q p := by
  rcases h with h | ⟨h1, h2⟩ <;> rintro (h' | ⟨h1', h2'⟩) <;> omega

/-- A cell is well formed: its value fits in 10 bits, and if its solved flag
is set it has exactly one candidate bit. -/
def properCell (c : Nat) : Prop :=
  c &&& 1023 = c ∧ (c.testBit 0 = true → possCount c = 1)

/-- Every cell of the grid is well formed; true of every grid the program
builds. -/
def WF (g : Grid) : Prop := ∀ p, properCell (g.cells p)

/-- Number of cells whose solved flag is set. -/
def solvedCells (g : Grid) : Nat := posList.countP fun p => g.cells p &&& SOLVED != 0

/-- Number of cells whose solved flag is clear. -/
def unsolvedCount (g : Grid) : Nat := posList.countP fun p => g.cells p &&& SOLVED == 0

/-- The data-model invariant: the counter field equals the number of cells
whose solved flag is set. -/
def Inv (g : Grid) : Prop := g.solved_counter = solvedCells g

theorem solvedCells_add_unsolvedCount (g : Grid) :
    solvedCells g + unsolvedCount g = 81 := by
  have h := countP_add_compl (fun p => g.cells p &&& SOLVED != 0) posList
  have hlen : posList.length = 81 := by decide
  rw [hlen] at h
  rw [solvedCells, unsolvedCount, ← h]
  congr 1
  refine List.countP_congr fun p _ => ?_
  rcases h' : g.cells p &&& SOLVED with _ | n <;> simp

instance (g : Grid) : Decidable (WF g) := by
  unfold WF properCell
  infer_instance

instance (g : Grid) : Decidable (Inv g) := by
  unfold Inv
  infer_instance

theorem possCount_le_nine (c : Nat) : possCount c ≤ 9 := by
  have := List.countP_le_length (l := List.range' 1 9)
    (fun i => c &&& (1 <<< i) != 0)
  simpa using this

theorem possCount_congr {c d : Nat}
    (h : ∀ v, 1 ≤ v → v ≤ 9 → c.testBit v = d.testBit v) : possCount c = possCount d := by
  refine List.countP_congr fun v hv => ?_
  have hv' : 1 ≤ v ∧ v ≤ 9 := by
    rw [List.mem_range'] at hv
    omega
  rw [hasBit_eq_testBit, hasBit_eq_testBit, h v hv'.1 hv'.2]

/-- Membership of a value bit, as the program tests it. -/
theorem possCount_pos_elim {c : Nat} (h : possCount c = 1) :
    ∃ v, 1 ≤ v ∧ v ≤ 9 ∧ c.testBit v = true ∧
      ∀ w, 1 ≤ w → w ≤ 9 → c.testBit w = true → w = v := by
  obtain ⟨v, hvmem, hvp, huniq⟩ := countP_eq_one_elim _ _ h
  rw [List.mem_range'] at hvmem
  rw [hasBit_eq_testBit] at hvp
  refine ⟨v, by omega, by omega, hvp, fun w h1 h9 hw => ?_⟩
  refine huniq w ?_ (by rw [hasBit_eq_testBit]; exact hw)
  rw [List.mem_range']
  exact ⟨w - 1, by omega, by omega⟩

/-- A well-formed solved cell is exactly `set_value v` for its unique value. -/
theorem properCell_solved_eq {c : Nat} (hc : properCell c) (h0 : c.testBit 0 = true) :
    ∃ v, 1 ≤ v ∧ v ≤ 9 ∧ c = set_value v := by
  obtain ⟨v, h1, h9, hbit, huniq⟩ := possCount_pos_elim (hc.2 h0)
  refine ⟨v, h1, h9, Nat.eq_of_testBit_eq fun i => ?_⟩
  rw [set_value, show SOLVED = 1 from rfl, testBit_lor_one, one_shiftLeft,
    Nat.testBit_two_pow]
  rcases eq_or_ne i 0 with rfl | hi0
  · simp [h0]
  · rcases Nat.lt_or_ge i 10 with hi10 | hi10
    · rcases hci : c.testBit i with _ | _
      · simp [hi0]
        intro hvi
        rw [hvi] at hbit
        rw [hci] at hbit
        cases hbit
      · have := huniq i (by omega) (by omega) hci
        simp [this, hi0]
    · have : c.testBit i = false := (lowBits_iff c).1 hc.1 i hi10
      rw [this]
      have hvi : v ≠ i := by omega
      simp [hvi, hi0]

theorem set_value_proper (v : Nat) (h1 : 1 ≤ v) (h9 : v ≤ 9) :
    properCell (set_value v) := by
  interval_cases v <;> exact ⟨by decide, fun _ => by decide⟩

theorem set_value_solved (v : Nat) : (set_value v).testBit 0 = true := by
  rw [set_value, show SOLVED = 1 from rfl, testBit_lor_one]
  simp

theorem set_value_land_OCELL (v : Nat) (h1 : 1 ≤ v) (h9 : v ≤ 9) :
    set_value v &&& O_CELL = 1 <<< v := by
  interval_cases v <;> decide

theorem set_value_testBit (v i : Nat) :
    (set_value v).testBit i = (decide (v = i) || decide (i = 0)) := by
  rw [set_value, show SOLVED = 1 from rfl, testBit_lor_one, one_shiftLeft,
    Nat.testBit_two_pow]

theorem clearPoss_set_value_self (v : Nat) (h1 : 1 ≤ v) (h9 : v ≤ 9) :
    clearPoss (set_value v) (1 <<< v) = 1 := by
  interval_cases v <;> decide

theorem clearPoss_set_value_other (w v : Nat) (hw1 : 1 ≤ w) (hw9 : w ≤ 9)
    (hv1 : 1 ≤ v) (hv9 : v ≤ 9) (hne : w ≠ v) :
    clearPoss (set_value w) (1 <<< v) = set_value w := by
  interval_cases w <;> interval_cases v <;> first | (exact absurd rfl hne) | decide

theorem mark_if_solved_set_value (w : Nat) (hw1 : 1 ≤ w) (hw9 : w ≤ 9) :
    mark_if_solved (set_value w) = set_value w := by
  interval_cases w <;> decide

theorem get_value_set_value (v : Nat) (h1 : 1 ≤ v) (h9 : v ≤ 9) :
    get_value (set_value v) = v := by
  interval_cases v <;> decide

/-! ### Characterization of the reduce scan

The loop body of `reduce` at a peer `p` depends only on `p`'s own cell and
writes only to `p`'s cell, so the completed scan is described cell by cell by
the following derived functions of the entry grid. -/

/-- The C branch condition at `p`: not the source cell, shares a row, column
or region with it, and `*cell & mask` is non-zero. -/
def touchedPeer (row col : Fin 9) (vbits : Nat) (g : Grid) (p : Pos) : Bool :=
  decide (p ≠ (row, col)) && isPeer row col p && (clearPoss (g.cells p) vbits != 0)

/-- The value written at a touched peer. -/
def peerNew (vbits : Nat) (g : Grid) (p : Pos) : Nat :=
  mark_if_solved (clearPoss (g.cells p) vbits)

/-- The value of cell `p` after a completed scan. -/
def peerResult (row col : Fin 9) (vbits : Nat) (g : Grid) (p : Pos) : Nat :=
  if touchedPeer row col vbits g p then peerNew vbits g p else g.cells p

/-- Whether the scan counts `p` as changed. -/
def modPeer (row col : Fin 9) (vbits : Nat) (g : Grid) (p : Pos) : Bool :=
  touchedPeer row col vbits g p && (peerNew vbits g p != g.cells p)

/-- Whether the scan increments `solved_counter` at `p`. -/
def solvPeer (row col : Fin 9) (vbits : Nat) (g : Grid) (p : Pos) : Bool :=
  modPeer row col vbits g p && (peerNew vbits g p &&& SOLVED != 0)

/-- Whether the scan hits the `(*cell == 0) || (*cell == 1)` early exit at `p`. -/
def badPeer (row col : Fin 9) (vbits : Nat) (g : Grid) (p : Pos) : Bool :=
  touchedPeer row col vbits g p && (peerNew vbits g p == 0 || peerNew vbits g p == 1)

theorem reduceStep_failed (row col : Fin 9) (vbits : Nat) (st : Grid × Nat × Bool)
    (p : Pos) (h : st.2.2 = true) : reduceStep row col vbits st p = st := by
  unfold reduceStep
  simp [h]

theorem foldl_reduceStep_failed (row col : Fin 9) (vbits : Nat) (L : List Pos)
    (st : Grid × Nat × Bool) (h : st.2.2 = true) :
    L.foldl (reduceStep row col vbits) st = st := by
  induction L with
  | nil => rfl
  | cons p L ih =>
    rw [List.foldl_cons, reduceStep_failed row col vbits st p h, ih]

theorem reduceStep_not_touched (row col : Fin 9) (vbits : Nat) (st : Grid × Nat × Bool)
    (p : Pos) (hf : st.2.2 = false) (h : touchedPeer row col vbits st.1 p = false) :
    reduceStep row col vbits st p = st := by
  rcases eq_or_ne p (row, col) with hp | hp
  · unfold reduceStep
    simp [hf, hp]
  · have hd : decide (p ≠ (row, col)) = true := by simp [hp]
    unfold touchedPeer at h
    rw [hd, Bool.true_and] at h
    unfold reduceStep
    simp [hf, hp, h]

theorem reduceStep_touched (row col : Fin 9) (vbits : Nat) (st : Grid × Nat × Bool)
    (p : Pos) (hf : st.2.2 = false) (h : touchedPeer row col vbits st.1 p = true) :
    reduceStep row col vbits st p =
      (if peerNew vbits st.1 p = st.1.cells p then st.1
       else
         { cells := Function.update st.1.cells p (peerNew vbits st.1 p),
           solved_counter :=
             if peerNew vbits st.1 p &&& SOLVED ≠ 0 then st.1.solved_counter + 1
             else st.1.solved_counter },
       (if peerNew vbits st.1 p = st.1.cells p then st.2.1 else st.2.1 + 1),
       (peerNew vbits st.1 p == 0 || peerNew vbits st.1 p == 1)) := by
  rw [touchedPeer, Bool.and_eq_true, Bool.and_eq_true] at h
  obtain ⟨⟨hne', hpeer⟩, hclear⟩ := h
  have hne : p ≠ (row, col) := of_decide_eq_true hne'
  rw [reduceStep, if_neg (by rw [hf]; exact Bool.false_ne_true), if_neg hne,
    if_pos (by rw [hpeer, Bool.true_and]; exact hclear)]
  rfl

theorem touchedPeer_congr (row col : Fin 9) (vbits : Nat) {gm g₀ : Grid} {p : Pos}
    (h : gm.cells p = g₀.cells p) :
    touchedPeer row col vbits gm p = touchedPeer row col vbits g₀ p := by
  unfold touchedPeer
  rw [h]

theorem peerNew_congr (vbits : Nat) {gm g₀ : Grid} {p : Pos}
    (h : gm.cells p = g₀.cells p) : peerNew vbits gm p = peerNew vbits g₀ p := by
  unfold peerNew
  rw [h]

theorem reduce_fold_ok (row col : Fin 9) (vbits : Nat) (g₀ : Grid) :
    ∀ (L : List Pos) (gm : Grid) (ch : Nat),
      L.Nodup → (∀ p ∈ L, gm.cells p = g₀.cells p) →
      (∀ p ∈ L, badPeer row col vbits g₀ p = false) →
      (L.foldl (reduceStep row col vbits) (gm, ch, false)).2.2 = false ∧
      (L.foldl (reduceStep row col vbits) (gm, ch, false)).2.1 =
        ch + L.countP (modPeer row col vbits g₀) ∧
      (L.foldl (reduceStep row col vbits) (gm, ch, false)).1.solved_counter =
        gm.solved_counter + L.countP (solvPeer row col vbits g₀) ∧
      ∀ q : Pos, (L.foldl (reduceStep row col vbits) (gm, ch, false)).1.cells q =
        if q ∈ L then peerResult row col vbits g₀ q else gm.cells q := by
  intro L
  induction L with
  | nil =>
    intro gm ch _ _ _
    refine ⟨rfl, by simp, by simp, fun q => by simp⟩
  | cons p L ih =>
    intro gm ch hnd hagree hnobad
    obtain ⟨hpL, hnd'⟩ := List.nodup_cons.1 hnd
    have hagp : gm.cells p = g₀.cells p := hagree p (List.mem_cons_self p L)
    have hbadp : badPeer row col vbits g₀ p = false := hnobad p (List.mem_cons_self p L)
    rcases ht : touchedPeer row col vbits g₀ p with _ | _
    · -- branch not taken at p
      have hstep : reduceStep row col vbits (gm, ch, false) p = (gm, ch, false) :=
        reduceStep_not_touched row col vbits (gm, ch, false) p rfl
          (by rw [show (gm, ch, false).1 = gm from rfl,
                touchedPeer_congr row col vbits hagp]; exact ht)
      have hmodp : modPeer row col vbits g₀ p = false := by
        unfold modPeer; rw [ht, Bool.false_and]
      have hsolvp : solvPeer row col vbits g₀ p = false := by
        unfold solvPeer; rw [hmodp, Bool.false_and]
      obtain ⟨ihf, ihc, ihs, ihq⟩ :=
        ih gm ch hnd' (fun q hq => hagree q (List.mem_cons_of_mem p hq))
          (fun q hq => hnobad q (List.mem_cons_of_mem p hq))
      rw [List.foldl_cons, hstep]
      refine ⟨ihf, ?_, ?_, ?_⟩
      · rw [ihc, List.countP_cons_of_neg _ _ (by simp [hmodp])]
      · rw [ihs, List.countP_cons_of_neg _ _ (by simp [hsolvp])]
      · intro q
        rw [ihq q]
        rcases eq_or_ne q p with rfl | hqp
        · simp [hpL, peerResult, ht, hagp]
        · simp [List.mem_cons, hqp]
    · -- branch taken at p
      have hnext : peerNew vbits gm p = peerNew vbits g₀ p := peerNew_congr vbits hagp
      have hnotbad : (peerNew vbits g₀ p == 0 || peerNew vbits g₀ p == 1) = false := by
        unfold badPeer at hbadp
        rw [ht, Bool.true_and] at hbadp
        exact hbadp
      have hstep := reduceStep_touched row col vbits (gm, ch, false) p rfl
        (by rw [show (gm, ch, false).1 = gm from rfl,
              touchedPeer_congr row col vbits hagp]; exact ht)
      rw [show (gm, ch, false).1 = gm from rfl] at hstep
      rw [show (gm, ch, false).2.1 = ch from rfl] at hstep
      rw [hnext, hagp] at hstep
      rcases heq : decide (peerNew vbits g₀ p = g₀.cells p) with _ | _
      · -- the write changes the cell
        have hne : peerNew vbits g₀ p ≠ g₀.cells p := of_decide_eq_false heq
        rw [if_neg hne, if_neg hne] at hstep
        set gm' : Grid :=
          { cells := Function.update gm.cells p (peerNew vbits g₀ p),
            solved_counter :=
              if peerNew vbits g₀ p &&& SOLVED ≠ 0 then gm.solved_counter + 1
              else gm.solved_counter } with hgm'
        have hagree' : ∀ q ∈ L, gm'.cells q = g₀.cells q := by
          intro q hq
          have hqp : q ≠ p := fun hh => hpL (hh ▸ hq)
          show Function.update gm.cells p (peerNew vbits g₀ p) q = g₀.cells q
          rw [Function.update_noteq hqp]
          exact hagree q (List.mem_cons_of_mem p hq)
        obtain ⟨ihf, ihc, ihs, ihq⟩ :=
          ih gm' (ch + 1) hnd' hagree'
            (fun q hq => hnobad q (List.mem_cons_of_mem p hq))
        rw [List.foldl_cons, hstep, hnotbad]
        have hmodp : modPeer row col vbits g₀ p = true := by
          unfold modPeer
          rw [ht, Bool.true_and, bne_iff_ne]
          exact hne
        have hsolvp : solvPeer row col vbits g₀ p = (peerNew vbits g₀ p &&& SOLVED != 0) := by
          unfold solvPeer
          rw [hmodp, Bool.true_and]
        refine ⟨ihf, ?_, ?_, ?_⟩
        · rw [ihc, List.countP_cons_of_pos _ _ hmodp]
          omega
        · rw [ihs, List.countP_cons]
          have hcnt : gm'.solved_counter =
              gm.solved_counter +
                (if (peerNew vbits g₀ p &&& SOLVED != 0) = true then 1 else 0) := by
            show (if peerNew vbits g₀ p &&& SOLVED ≠ 0 then gm.solved_counter + 1
              else gm.solved_counter) = _
            rcases hs : (peerNew vbits g₀ p &&& SOLVED != 0) with _ | _
            · rw [if_neg (by simpa using hs), if_neg (by simp [hs])]
              omega
            · rw [if_pos (by simpa using hs), if_pos (by simp [hs])]
          rw [hcnt, hsolvp]
          omega
        · intro q
          rw [ihq q]
          rcases eq_or_ne q p with rfl | hqp
          · rw [if_neg hpL, if_pos (List.mem_cons_self q L)]
            show Function.update gm.cells q (peerNew vbits g₀ q) q = _
            rw [Function.update_same, peerResult, if_pos ht]
          · rcases hq : decide (q ∈ L) with _ | _
            · have hq' : q ∉ L := of_decide_eq_false hq
              rw [if_neg hq', if_neg (by simp [List.mem_cons, hqp, hq'])]
              show Function.update gm.cells p (peerNew vbits g₀ p) q = gm.cells q
              rw [Function.update_noteq hqp]
            · have hq' : q ∈ L := of_decide_eq_true hq
              rw [if_pos hq', if_pos (List.mem_cons_of_mem p hq')]
      · -- the write stores the old value back
        have heq' : peerNew vbits g₀ p = g₀.cells p := of_decide_eq_true heq
        rw [if_pos heq', if_pos heq'] at hstep
        obtain ⟨ihf, ihc, ihs, ihq⟩ :=
          ih gm ch hnd' (fun q hq => hagree q (List.mem_cons_of_mem p hq))
            (fun q hq => hnobad q (List.mem_cons_of_mem p hq))
        rw [List.foldl_cons, hstep, hnotbad]
        have hmodp : modPeer row col vbits g₀ p = false := by
          unfold modPeer
          rw [ht, Bool.true_and]
          simp [heq']
        have hsolvp : solvPeer row col vbits g₀ p = false := by
          unfold solvPeer; rw [hmodp, Bool.false_and]
        refine ⟨ihf, ?_, ?_, ?_⟩
        · rw [ihc, List.countP_cons_of_neg _ _ (by simp [hmodp])]
        · rw [ihs, List.countP_cons_of_neg _ _ (by simp [hsolvp])]
        · intro q
          rw [ihq q]
          rcases eq_or_ne q p with rfl | hqp
          · simp [hpL, peerResult, ht, hagp, heq']
          · simp [List.mem_cons, hqp]

theorem reduce_fold_bad (row col : Fin 9) (vbits : Nat) (g₀ : Grid) :
    ∀ (L : List Pos) (gm : Grid) (ch : Nat),
      L.Nodup → (∀ p ∈ L, gm.cells p = g₀.cells p) →
      (∃ p ∈ L, badPeer row col vbits g₀ p = true) →
      (L.foldl (reduceStep row col vbits) (gm, ch, false)).2.2 = true := by
  intro L
  induction L with
  | nil =>
    rintro gm ch _ _ ⟨p, hp, _⟩
    cases hp
  | cons p L ih =>
    intro gm ch hnd hagree hbad
    obtain ⟨hpL, hnd'⟩ := List.nodup_cons.1 hnd
    have hagp : gm.cells p = g₀.cells p := hagree p (List.mem_cons_self p L)
    rcases hb : badPeer row col vbits g₀ p with _ | _
    · -- p is not the offending peer; the offending peer lies further on
      obtain ⟨q, hq, hqbad⟩ := hbad
      have hqL : q ∈ L := by
        rcases List.mem_cons.1 hq with rfl | h
        · rw [hb] at hqbad; cases hqbad
        · exact h
      rcases ht : touchedPeer row col vbits g₀ p with _ | _
      · rw [List.foldl_cons, reduceStep_not_touched row col vbits (gm, ch, false) p rfl
          (by rw [show (gm, ch, false).1 = gm from rfl,
                touchedPeer_congr row col vbits hagp]; exact ht)]
        exact ih gm ch hnd' (fun r hr => hagree r (List.mem_cons_of_mem p hr)) ⟨q, hqL, hqbad⟩
      · have hnotbad : (peerNew vbits g₀ p == 0 || peerNew vbits g₀ p == 1) = false := by
          unfold badPeer at hb
          rw [ht, Bool.true_and] at hb
          exact hb
        have hstep := reduceStep_touched row col vbits (gm, ch, false) p rfl
          (by rw [show (gm, ch, false).1 = gm from rfl,
                touchedPeer_congr row col vbits hagp]; exact ht)
        rw [show (gm, ch, false).1 = gm from rfl] at hstep
        rw [show (gm, ch, false).2.1 = ch from rfl] at hstep
        rw [peerNew_congr vbits hagp, hagp] at hstep
        rcases heq : decide (peerNew vbits g₀ p = g₀.cells p) with _ | _
        · have hne : peerNew vbits g₀ p ≠ g₀.cells p := of_decide_eq_false heq
          rw [if_neg hne, if_neg hne] at hstep
          rw [List.foldl_cons, hstep, hnotbad]
          refine ih _ (ch + 1) hnd' ?_ ⟨q, hqL, hqbad⟩
          intro r hr
          have hrp : r ≠ p := fun hh => hpL (hh ▸ hr)
          show Function.update gm.cells p (peerNew vbits g₀ p) r = g₀.cells r
          rw [Function.update_noteq hrp]
          exact hagree r (List.mem_cons_of_mem p hr)
        · have heq' : peerNew vbits g₀ p = g₀.cells p := of_decide_eq_true heq
          rw [if_pos heq', if_pos heq'] at hstep
          rw [List.foldl_cons, hstep, hnotbad]
          exact ih gm ch hnd' (fun r hr => hagree r (List.mem_cons_of_mem p hr)) ⟨q, hqL, hqbad⟩
    · -- p itself trips the contradiction check
      have hb' := hb
      rw [badPeer, Bool.and_eq_true] at hb'
      obtain ⟨ht, hbadval⟩ := hb'
      have hstep := reduceStep_touched row col vbits (gm, ch, false) p rfl
        (by rw [show (gm, ch, false).1 = gm from rfl,
              touchedPeer_congr row col vbits hagp]; exact ht)
      rw [show (gm, ch, false).1 = gm from rfl] at hstep
      rw [show (gm, ch, false).2.1 = ch from rfl] at hstep
      rw [peerNew_congr vbits hagp, hagp] at hstep
      rw [List.foldl_cons, hstep, hbadval, foldl_reduceStep_failed row col vbits L _ rfl]

/-! ### Specification of `reduce` -/

/-- The value bits the scan clears: `source_cell & O_CELL`. -/
def srcBits (g : Grid) (row col : Fin 9) : Nat := g.cells (row, col) &&& O_CELL

/-- Some peer's cell is wiped to `0` or bare `1` by the scan. -/
def hasBadPeer (g : Grid) (row col : Fin 9) : Bool :=
  posList.any (badPeer row col (srcBits g row col) g)

/-- The number of peers the scan changes. -/
def modCount (g : Grid) (row col : Fin 9) : Nat :=
  posList.countP (modPeer row col (srcBits g row col) g)

/-- The number of peers the scan newly solves. -/
def solvCount (g : Grid) (row col : Fin 9) : Nat :=
  posList.countP (solvPeer row col (srcBits g row col) g)

theorem reduce_unsolved (g : Grid) (row col : Fin 9)
    (h : g.cells (row, col) &&& SOLVED = 0) : reduce g row col = (g, 0) := by
  unfold reduce
  rw [if_pos h]

theorem reduceFin_fst (st : Grid × Nat × Bool) : (reduceFin st).1 = st.1 := by
  unfold reduceFin
  split <;> rfl

theorem reduceFin_snd_ok (st : Grid × Nat × Bool) (h : st.2.2 = false) :
    (reduceFin st).2 = (st.2.1 : Int) := by
  unfold reduceFin
  rw [if_neg (by simp [h])]

theorem reduceFin_snd_bad (st : Grid × Nat × Bool) (h : st.2.2 = true) :
    (reduceFin st).2 = -1 := by
  unfold reduceFin
  rw [if_pos h]

theorem reduce_of_solved (g : Grid) (row col : Fin 9)
    (h : g.cells (row, col) &&& SOLVED ≠ 0) :
    reduce g row col =
      reduceFin (posList.foldl (reduceStep row col (srcBits g row col)) (g, 0, false)) := by
  unfold reduce srcBits
  rw [if_neg h]

theorem reduce_spec_ok (g : Grid) (row col : Fin 9)
    (h : g.cells (row, col) &&& SOLVED ≠ 0) (hnb : hasBadPeer g row col = false) :
    (reduce g row col).2 = (modCount g row col : Int) ∧
    (reduce g row col).1.solved_counter = g.solved_counter + solvCount g row col ∧
    ∀ q : Pos, (reduce g row col).1.cells q = peerResult row col (srcBits g row col) g q := by
  have hnb' : ∀ p ∈ posList, badPeer row col (srcBits g row col) g p = false := by
    intro p hp
    rcases hbp : badPeer row col (srcBits g row col) g p with _ | _
    · rfl
    · exfalso
      have : hasBadPeer g row col = true := List.any_eq_true.2 ⟨p, hp, hbp⟩
      rw [hnb] at this
      cases this
  obtain ⟨hf, hc, hs, hq⟩ :=
    reduce_fold_ok row col (srcBits g row col) g posList g 0 posList_nodup
      (fun _ _ => rfl) hnb'
  rw [reduce_of_solved g row col h]
  refine ⟨?_, ?_, ?_⟩
  · rw [reduceFin_snd_ok _ hf, hc, Nat.zero_add]
    rfl
  · rw [reduceFin_fst, hs]
    rfl
  · intro q
    rw [reduceFin_fst, hq q, if_pos (mem_posList q)]

theorem reduce_spec_bad (g : Grid) (row col : Fin 9)
    (h : g.cells (row, col) &&& SOLVED ≠ 0) (hb : hasBadPeer g row col = true) :
    (reduce g row col).2 = -1 := by
  obtain ⟨p, hp, hbp⟩ := List.any_eq_true.1 hb
  have hfold := reduce_fold_bad row col (srcBits g row col) g posList g 0 posList_nodup
    (fun _ _ => rfl) ⟨p, hp, hbp⟩
  rw [reduce_of_solved g row col h, reduceFin_snd_bad _ hfold]

theorem reduce_fail_iff (g : Grid) (row col : Fin 9)
    (h : g.cells (row, col) &&& SOLVED ≠ 0) :
    (reduce g row col).2 = -1 ↔ hasBadPeer g row col = true := by
  constructor
  · intro hr
    rcases hbp : hasBadPeer g row col with _ | _
    · obtain ⟨hc, -, -⟩ := reduce_spec_ok g row col h hbp
      rw [hc] at hr
      cases hr
    · rfl
  · exact reduce_spec_bad g row col h

theorem grid_eq (g g' : Grid) (hc : ∀ p, g.cells p = g'.cells p)
    (hs : g.solved_counter = g'.solved_counter) : g = g' := by
  cases g with
  | mk gc gs =>
    cases g' with
    | mk gc' gs' =>
      simp only [Grid.mk.injEq]
      exact ⟨funext fun p => hc p, hs⟩

theorem reduce_result_cases (g : Grid) (row col : Fin 9) :
    (reduce g row col).2 = -1 ∨ ∃ n : Nat, (reduce g row col).2 = (n : Int) := by
  rcases hs : g.cells (row, col) &&& SOLVED with _ | k
  · rw [reduce_unsolved g row col hs]
    exact Or.inr ⟨0, rfl⟩
  · have hsol : g.cells (row, col) &&& SOLVED ≠ 0 := by rw [hs]; exact Nat.succ_ne_zero k
    rw [reduce_of_solved g row col hsol]
    rcases hf : (posList.foldl (reduceStep row col (srcBits g row col)) (g, 0, false)).2.2 with _ | _
    · rw [reduceFin_snd_ok _ hf]
      exact Or.inr ⟨_, rfl⟩
    · rw [reduceFin_snd_bad _ hf]
      exact Or.inl rfl

theorem reduce_zero_fix (g : Grid) (row col : Fin 9)
    (h2 : (reduce g row col).2 = 0) : reduce g row col = (g, 0) := by
  rcases hs : g.cells (row, col) &&& SOLVED with _ | k
  · exact reduce_unsolved g row col hs
  · have hsol : g.cells (row, col) &&& SOLVED ≠ 0 := by rw [hs]; exact Nat.succ_ne_zero k
    rcases hbp : hasBadPeer g row col with _ | _
    · obtain ⟨hc, hcnt, hq⟩ := reduce_spec_ok g row col hsol hbp
      have hmod : modCount g row col = 0 := by
        rw [hc] at h2
        exact_mod_cast h2
      have hallmod : ∀ p ∈ posList, modPeer row col (srcBits g row col) g p = false := by
        intro p hp
        rcases hm : modPeer row col (srcBits g row col) g p with _ | _
        · rfl
        · exfalso
          have := List.countP_eq_zero.1 hmod p hp
          rw [hm] at this
          exact this rfl
      have hsolv : solvCount g row col = 0 := by
        refine List.countP_eq_zero.2 fun p hp => ?_
        have hm := hallmod p hp
        unfold solvPeer
        rw [hm, Bool.false_and]
        exact Bool.false_ne_true
      have hcells : ∀ q : Pos, (reduce g row col).1.cells q = g.cells q := by
        intro q
        rw [hq q]
        unfold peerResult
        rcases ht : touchedPeer row col (srcBits g row col) g q with _ | _
        · simp [ht]
        · have hm := hallmod q (mem_posList q)
          unfold modPeer at hm
          rw [ht, Bool.true_and] at hm
          simp only [ht, if_true]
          simpa using hm
      have hcnt' : (reduce g row col).1.solved_counter = g.solved_counter := by
        rw [hcnt, hsolv]
        rfl
      have hg : (reduce g row col).1 = g := grid_eq _ _ hcells hcnt'
      calc reduce g row col = ((reduce g row col).1, (reduce g row col).2) := rfl
        _ = (g, 0) := by rw [hg, h2]
    · have := reduce_spec_bad g row col hsol hbp
      rw [this] at h2
      cases h2

/-! ### Monotonicity: candidate bits only cleared, flags only set -/

/-- `g'` tightens `g`: every candidate bit of `g'` was already in `g`, every
solved flag of `g` survives in `g'`, and the counter has not decreased. -/
def gridLe (g g' : Grid) : Prop :=
  (∀ q : Pos, ∀ v, v ≠ 0 → (g'.cells q).testBit v = true → (g.cells q).testBit v = true) ∧
  (∀ q : Pos, (g.cells q).testBit 0 = true → (g'.cells q).testBit 0 = true) ∧
  g.solved_counter ≤ g'.solved_counter

theorem gridLe_refl (g : Grid) : gridLe g g :=
  ⟨fun _ _ _ h => h, fun _ h => h, le_refl _⟩

theorem gridLe_trans {g₁ g₂ g₃ : Grid} (h12 : gridLe g₁ g₂) (h23 : gridLe g₂ g₃) :
    gridLe g₁ g₃ :=
  ⟨fun q v hv h => h12.1 q v hv (h23.1 q v hv h),
   fun q h => h23.2.1 q (h12.2.1 q h),
   le_trans h12.2.2 h23.2.2⟩

theorem testBit_peerNew (vbits c : Nat) (v : Nat) (hv : v ≠ 0) :
    (mark_if_solved (clearPoss c vbits)).testBit v = (c.testBit v && !vbits.testBit v) := by
  rw [testBit_mark_if_solved _ _ hv, testBit_clearPoss]

theorem testBit_peerNew_zero (vbits c : Nat) (hvb : vbits.testBit 0 = false) :
    (mark_if_solved (clearPoss c vbits)).testBit 0 =
      (c.testBit 0 || decide (possCount (clearPoss c vbits) = 1)) := by
  rw [testBit_mark_if_solved_zero, testBit_clearPoss, hvb]
  cases c.testBit 0 <;> rfl

theorem testBit_O_CELL (i : Nat) :
    O_CELL.testBit i = ((decide (i < 10)).xor (decide (0 = i))) := by
  rw [show O_CELL = 1023 ^^^ 1 from rfl, Nat.testBit_xor, testBit_1023,
    show (1 : Nat) = 2 ^ 0 from rfl, Nat.testBit_two_pow]

theorem land_OCELL_low (x : Nat) (i : Nat) (h : (x &&& O_CELL).testBit i = true) :
    1 ≤ i ∧ i ≤ 9 := by
  rw [Nat.testBit_land, testBit_O_CELL, Bool.and_eq_true] at h
  obtain ⟨-, h2⟩ := h
  by_contra hcon
  have hcase : i = 0 ∨ 10 ≤ i := by omega
  rcases hcase with rfl | h10
  · simp at h2
  · rw [decide_eq_false (by omega : ¬ i < 10), decide_eq_false (by omega : ¬ 0 = i)] at h2
    simp at h2

theorem land_OCELL_bit_zero (x : Nat) : (x &&& O_CELL).testBit 0 = false := by
  rcases h : (x &&& O_CELL).testBit 0 with _ | _
  · rfl
  · have := land_OCELL_low x 0 h
    omega

theorem gridLe_update (g : Grid) (p : Pos) (n : Nat) (cnt : Nat)
    (hbits : ∀ v, v ≠ 0 → n.testBit v = true → (g.cells p).testBit v = true)
    (hbit0 : (g.cells p).testBit 0 = true → n.testBit 0 = true)
    (hcnt : g.solved_counter ≤ cnt) :
    gridLe g { cells := Function.update g.cells p n, solved_counter := cnt } := by
  have hcells : ({ cells := Function.update g.cells p n, solved_counter := cnt } : Grid).cells
      = Function.update g.cells p n := rfl
  refine ⟨?_, ?_, hcnt⟩
  · intro q v hv h
    rw [hcells] at h
    rcases eq_or_ne q p with rfl | hqp
    · rw [Function.update_same] at h
      exact hbits v hv h
    · rw [Function.update_noteq hqp] at h
      exact h
  · intro q h
    rw [hcells]
    rcases eq_or_ne q p with rfl | hqp
    · rw [Function.update_same]
      exact hbit0 h
    · rw [Function.update_noteq hqp]
      exact h

theorem reduceStep_gridLe (row col : Fin 9) (vbits : Nat) (st : Grid × Nat × Bool)
    (p : Pos) (hvb : vbits.testBit 0 = false) :
    gridLe st.1 (reduceStep row col vbits st p).1 := by
  rcases hf : st.2.2 with _ | _
  · rcases ht : touchedPeer row col vbits st.1 p with _ | _
    · rw [reduceStep_not_touched row col vbits st p hf ht]
      exact gridLe_refl _
    · rw [reduceStep_touched row col vbits st p hf ht]
      rcases heq : decide (peerNew vbits st.1 p = st.1.cells p) with _ | _
      · have hne := of_decide_eq_false heq
        rw [if_neg hne]
        refine gridLe_update st.1 p (peerNew vbits st.1 p) _ ?_ ?_ ?_
        · intro v hv h
          rw [peerNew, testBit_peerNew vbits _ v hv, Bool.and_eq_true] at h
          exact h.1
        · intro h
          rw [peerNew, testBit_peerNew_zero vbits _ hvb, h]
          rfl
        · split <;> omega
      · rw [if_pos (of_decide_eq_true heq)]
        exact gridLe_refl _
  · rw [reduceStep_failed row col vbits st p hf]
    exact gridLe_refl _

theorem foldl_reduceStep_gridLe (row col : Fin 9) (vbits : Nat)
    (hvb : vbits.testBit 0 = false) :
    ∀ (L : List Pos) (st : Grid × Nat × Bool),
      gridLe st.1 (L.foldl (reduceStep row col vbits) st).1 := by
  intro L
  induction L with
  | nil => intro st; exact gridLe_refl _
  | cons p L ih =>
    intro st
    rw [List.foldl_cons]
    exact gridLe_trans (reduceStep_gridLe row col vbits st p hvb)
      (ih (reduceStep row col vbits st p))

theorem reduce_gridLe (g : Grid) (row col : Fin 9) : gridLe g (reduce g row col).1 := by
  rcases hs : g.cells (row, col) &&& SOLVED with _ | k
  · rw [reduce_unsolved g row col hs]
    exact gridLe_refl _
  · have hsol : g.cells (row, col) &&& SOLVED ≠ 0 := by rw [hs]; exact Nat.succ_ne_zero k
    rw [reduce_of_solved g row col hsol, reduceFin_fst]
    exact foldl_reduceStep_gridLe row col (srcBits g row col)
      (land_OCELL_bit_zero (g.cells (row, col))) posList (g, 0, false)

theorem reduceGridStep_gridLe (st : Grid × Nat × Bool) (p : Pos) :
    gridLe st.1 (reduceGridStep st p).1 := by
  unfold reduceGridStep
  rcases hf : st.2.2 with _ | _
  · rw [if_neg Bool.false_ne_true]
    show gridLe st.1
      (if (reduce st.1 p.1 p.2).2 = -1 then ((reduce st.1 p.1 p.2).1, st.2.1, true)
       else ((reduce st.1 p.1 p.2).1, st.2.1 + (reduce st.1 p.1 p.2).2.toNat, false)).1
    by_cases hr : (reduce st.1 p.1 p.2).2 = -1
    · rw [if_pos hr]
      exact reduce_gridLe st.1 p.1 p.2
    · rw [if_neg hr]
      exact reduce_gridLe st.1 p.1 p.2
  · rw [if_pos rfl]
    exact gridLe_refl _

theorem foldl_reduceGridStep_gridLe :
    ∀ (L : List Pos) (st : Grid × Nat × Bool),
      gridLe st.1 (L.foldl reduceGridStep st).1 := by
  intro L
  induction L with
  | nil => intro st; exact gridLe_refl _
  | cons p L ih =>
    intro st
    rw [List.foldl_cons]
    exact gridLe_trans (reduceGridStep_gridLe st p) (ih (reduceGridStep st p))

theorem reduce_grid_gridLe (g : Grid) : gridLe g (reduce_grid g).1 := by
  rw [reduce_grid, reduceFin_fst]
  exact foldl_reduceGridStep_gridLe posList (g, 0, false)

/-! ### The termination measure of the propagation loop -/

theorem land_solved_val (c : Nat) :
    c &&& SOLVED = if c.testBit 0 = true then 1 else 0 := by
  show c &&& 1 = _
  rcases h : c.testBit 0 with _ | _
  · rw [show (1 : Nat) = 2 ^ 0 from rfl, land_two_pow_of_testBit_false h]
    simp
  · rw [show (1 : Nat) = 2 ^ 0 from rfl, land_two_pow_of_testBit_true h]
    simp

theorem possCount_testBit (c : Nat) :
    possCount c = (List.range' 1 9).countP fun v => c.testBit v :=
  List.countP_congr fun v _ => by rw [hasBit_eq_testBit]

theorem mem_range_one_nine {v : Nat} (h1 : 1 ≤ v) (h9 : v ≤ 9) :
    v ∈ List.range' 1 9 := by
  rw [List.mem_range']
  exact ⟨v - 1, by omega, by omega⟩

theorem cellWeight_peerNew_lt (c vbits : Nat) (hvb : vbits &&& O_CELL = vbits)
    (hne : mark_if_solved (clearPoss c vbits) ≠ c) :
    cellWeight (mark_if_solved (clearPoss c vbits)) < cellWeight c := by
  have hlow : ∀ i, vbits.testBit i = true → 1 ≤ i ∧ i ≤ 9 := by
    intro i hi
    rw [← hvb] at hi
    exact land_OCELL_low vbits i hi
  have hvb0 : vbits.testBit 0 = false := by
    rcases h : vbits.testBit 0 with _ | _
    · rfl
    · have := hlow 0 h
      omega
  set n := mark_if_solved (clearPoss c vbits) with hn
  have hbits : ∀ v, v ≠ 0 → n.testBit v = (c.testBit v && !vbits.testBit v) :=
    fun v hv => testBit_peerNew vbits c v hv
  have hb0 : n.testBit 0 = (c.testBit 0 || decide (possCount (clearPoss c vbits) = 1)) :=
    testBit_peerNew_zero vbits c hvb0
  have hmono : ∀ v, v ≠ 0 → n.testBit v = true → c.testBit v = true := by
    intro v hv h
    rw [hbits v hv, Bool.and_eq_true] at h
    exact h.1
  have hmono0 : c.testBit 0 = true → n.testBit 0 = true := by
    intro h
    rw [hb0, h]
    rfl
  have hland : n &&& SOLVED ≤ 1 ∧ c &&& SOLVED ≤ 1 ∧
      (c.testBit 0 = true → n &&& SOLVED = 1) := by
    rw [land_solved_val n, land_solved_val c]
    refine ⟨by split <;> omega, by split <;> omega, fun h => by rw [hmono0 h]; rfl⟩
  by_cases hA : ∃ v ∈ List.range' 1 9, c.testBit v = true ∧ n.testBit v = false
  · obtain ⟨v, hvmem, hcv, hnv⟩ := hA
    have hvne : v ≠ 0 := by
      rw [List.mem_range'] at hvmem
      omega
    have hplt : possCount n < possCount c := by
      rw [possCount_testBit n, possCount_testBit c]
      refine countP_lt_of_witness _ _ _ ?_ v hvmem hcv hnv
      intro w hw hnw
      have hwne : w ≠ 0 := by
        rw [List.mem_range'] at hw
        omega
      exact hmono w hwne hnw
    unfold cellWeight
    rw [land_solved_val n, land_solved_val c]
    rcases hc0 : c.testBit 0 with _ | _
    · rw [if_neg Bool.false_ne_true]
      split <;> omega
    · rw [hmono0 hc0]
      omega
  · have hsame : ∀ v ∈ List.range' 1 9, n.testBit v = c.testBit v := by
      intro v hv
      have hvne : v ≠ 0 := by
        rw [List.mem_range'] at hv
        omega
      rcases hnv : n.testBit v with _ | _
      · rcases hcv : c.testBit v with _ | _
        · rfl
        · exact absurd ⟨v, hv, hcv, hnv⟩ hA
      · rw [hmono v hvne hnv]
    have hpeq : possCount n = possCount c := by
      rw [possCount_testBit n, possCount_testBit c]
      exact List.countP_congr fun v hv => by rw [hsame v hv]
    have hhigh : ∀ i, 10 ≤ i → n.testBit i = c.testBit i := by
      intro i hi
      have hvi : vbits.testBit i = false := by
        rcases h : vbits.testBit i with _ | _
        · rfl
        · have := hlow i h
          omega
      rw [hbits i (by omega), hvi]
      cases c.testBit i <;> rfl
    have h0ne : n.testBit 0 ≠ c.testBit 0 := by
      intro h0
      refine hne (Nat.eq_of_testBit_eq fun i => ?_)
      rcases eq_or_ne i 0 with rfl | hi0
      · exact h0
      · rcases Nat.lt_or_ge i 10 with h10 | h10
        · exact hsame i (mem_range_one_nine (by omega) (by omega))
        · exact hhigh i h10
    have hc0 : c.testBit 0 = false := by
      rcases h : c.testBit 0 with _ | _
      · rfl
      · exact (h0ne (by rw [hmono0 h, h])).elim
    have hn0 : n.testBit 0 = true := by
      rcases h : n.testBit 0 with _ | _
      · rw [h, hc0] at h0ne
        exact absurd rfl h0ne
      · rfl
    unfold cellWeight
    rw [land_solved_val n, land_solved_val c, hn0, hc0, hpeq]
    simp

theorem gridWeight_update (g : Grid) (p : Pos) (n cnt : Nat) :
    gridWeight { cells := Function.update g.cells p n, solved_counter := cnt } +
      cellWeight (g.cells p) = gridWeight g + cellWeight n := by
  have h := sum_map_update posList
    (fun q => cellWeight (Function.update g.cells p n q))
    (fun q => cellWeight (g.cells q)) p posList_nodup (mem_posList p)
    (fun q _ hq => by
      show cellWeight (Function.update g.cells p n q) = cellWeight (g.cells q)
      rw [Function.update_noteq hq])
  have h2 : (fun q => cellWeight (g.cells q)) p = cellWeight (g.cells p) := rfl
  have h3 : (fun q => cellWeight (Function.update g.cells p n q)) p = cellWeight n := by
    show cellWeight (Function.update g.cells p n p) = _
    rw [Function.update_same]
  rw [h2, h3] at h
  exact h

theorem reduceStep_weight (row col : Fin 9) (vbits : Nat) (st : Grid × Nat × Bool)
    (p : Pos) (hvb : vbits &&& O_CELL = vbits) :
    gridWeight (reduceStep row col vbits st p).1 + (reduceStep row col vbits st p).2.1 ≤
      gridWeight st.1 + st.2.1 := by
  rcases hf : st.2.2 with _ | _
  · rcases ht : touchedPeer row col vbits st.1 p with _ | _
    · rw [reduceStep_not_touched row col vbits st p hf ht]
    · rw [reduceStep_touched row col vbits st p hf ht]
      rcases heq : decide (peerNew vbits st.1 p = st.1.cells p) with _ | _
      · have hne := of_decide_eq_false heq
        rw [if_neg hne, if_neg hne]
        set G : Grid :=
          { cells := Function.update st.1.cells p (peerNew vbits st.1 p),
            solved_counter :=
              if peerNew vbits st.1 p &&& SOLVED ≠ 0 then st.1.solved_counter + 1
              else st.1.solved_counter } with hG
        show gridWeight G + (st.2.1 + 1) ≤ gridWeight st.1 + st.2.1
        have hlt : cellWeight (peerNew vbits st.1 p) < cellWeight (st.1.cells p) :=
          cellWeight_peerNew_lt (st.1.cells p) vbits hvb hne
        have hupd := gridWeight_update st.1 p (peerNew vbits st.1 p)
          (if peerNew vbits st.1 p &&& SOLVED ≠ 0 then st.1.solved_counter + 1
           else st.1.solved_counter)
        rw [← hG] at hupd
        omega
      · rw [if_pos (of_decide_eq_true heq), if_pos (of_decide_eq_true heq)]
  · rw [reduceStep_failed row col vbits st p hf]

theorem foldl_reduceStep_weight (row col : Fin 9) (vbits : Nat)
    (hvb : vbits &&& O_CELL = vbits) :
    ∀ (L : List Pos) (st : Grid × Nat × Bool),
      gridWeight (L.foldl (reduceStep row col vbits) st).1 +
        (L.foldl (reduceStep row col vbits) st).2.1 ≤
      gridWeight st.1 + st.2.1 := by
  intro L
  induction L with
  | nil => intro st; exact le_refl _
  | cons p L ih =>
    intro st
    rw [List.foldl_cons]
    exact le_trans (ih (reduceStep row col vbits st p))
      (reduceStep_weight row col vbits st p hvb)

theorem srcBits_idem (g : Grid) (row col : Fin 9) :
    srcBits g row col &&& O_CELL = srcBits g row col := by
  refine Nat.eq_of_testBit_eq fun i => ?_
  unfold srcBits
  rw [Nat.testBit_land, Nat.testBit_land]
  cases (g.cells (row, col)).testBit i <;> cases O_CELL.testBit i <;> rfl

theorem reduce_weight (g : Grid) (row col : Fin 9) :
    gridWeight (reduce g row col).1 + (reduce g row col).2.toNat ≤ gridWeight g := by
  rcases hs : g.cells (row, col) &&& SOLVED with _ | k
  · rw [reduce_unsolved g row col hs]
    show gridWeight g + ((0 : Int)).toNat ≤ gridWeight g
    have h0 : ((0 : Int)).toNat = 0 := rfl
    rw [h0]
    omega
  · have hsol : g.cells (row, col) &&& SOLVED ≠ 0 := by rw [hs]; exact Nat.succ_ne_zero k
    rw [reduce_of_solved g row col hsol]
    have hfold : gridWeight
        (posList.foldl (reduceStep row col (srcBits g row col)) (g, 0, false)).1 +
        (posList.foldl (reduceStep row col (srcBits g row col)) (g, 0, false)).2.1 ≤
        gridWeight g + 0 :=
      foldl_reduceStep_weight row col (srcBits g row col) (srcBits_idem g row col)
        posList (g, 0, false)
    rcases hf : (posList.foldl (reduceStep row col (srcBits g row col)) (g, 0, false)).2.2
      with _ | _
    · rw [reduceFin_fst, reduceFin_snd_ok _ hf, Int.toNat_natCast]
      omega
    · rw [reduceFin_fst, reduceFin_snd_bad _ hf]
      have h1 : ((-1 : Int)).toNat = 0 := rfl
      rw [h1]
      omega

theorem reduceGridStep_weight (st : Grid × Nat × Bool) (p : Pos) :
    gridWeight (reduceGridStep st p).1 + (reduceGridStep st p).2.1 ≤
      gridWeight st.1 + st.2.1 := by
  have hw := reduce_weight st.1 p.1 p.2
  unfold reduceGridStep
  rcases hf : st.2.2 with _ | _
  · rw [if_neg Bool.false_ne_true]
    show gridWeight
      (if (reduce st.1 p.1 p.2).2 = -1 then ((reduce st.1 p.1 p.2).1, st.2.1, true)
       else ((reduce st.1 p.1 p.2).1, st.2.1 + (reduce st.1 p.1 p.2).2.toNat, false)).1 +
      (if (reduce st.1 p.1 p.2).2 = -1 then ((reduce st.1 p.1 p.2).1, st.2.1, true)
       else ((reduce st.1 p.1 p.2).1, st.2.1 + (reduce st.1 p.1 p.2).2.toNat, false)).2.1
      ≤ gridWeight st.1 + st.2.1
    by_cases hr : (reduce st.1 p.1 p.2).2 = -1
    · rw [if_pos hr]
      show gridWeight (reduce st.1 p.1 p.2).1 + st.2.1 ≤ gridWeight st.1 + st.2.1
      omega
    · rw [if_neg hr]
      show gridWeight (reduce st.1 p.1 p.2).1 + (st.2.1 + (reduce st.1 p.1 p.2).2.toNat) ≤
        gridWeight st.1 + st.2.1
      omega
  · rw [if_pos rfl]

theorem foldl_reduceGridStep_weight :
    ∀ (L : List Pos) (st : Grid × Nat × Bool),
      gridWeight (L.foldl reduceGridStep st).1 + (L.foldl reduceGridStep st).2.1 ≤
        gridWeight st.1 + st.2.1 := by
  intro L
  induction L with
  | nil => intro st; exact le_refl _
  | cons p L ih =>
    intro st
    rw [List.foldl_cons]
    exact le_trans (ih (reduceGridStep st p)) (reduceGridStep_weight st p)

theorem reduce_grid_weight (g : Grid) :
    gridWeight (reduce_grid g).1 + (reduce_grid g).2.toNat ≤ gridWeight g := by
  unfold reduce_grid
  have hfold : gridWeight (posList.foldl reduceGridStep (g, 0, false)).1 +
      (posList.foldl reduceGridStep (g, 0, false)).2.1 ≤ gridWeight g + 0 :=
    foldl_reduceGridStep_weight posList (g, 0, false)
  rcases hf : (posList.foldl reduceGridStep (g, 0, false)).2.2 with _ | _
  · rw [reduceFin_fst, reduceFin_snd_ok _ hf, Int.toNat_natCast]
    omega
  · rw [reduceFin_fst, reduceFin_snd_bad _ hf]
    have h1 : ((-1 : Int)).toNat = 0 := rfl
    rw [h1]
    omega

theorem reduce_grid_weight_lt (g : Grid) (n : Nat) (h : (reduce_grid g).2 = (n : Int))
    (hn : 0 < n) : gridWeight (reduce_grid g).1 < gridWeight g := by
  have := reduce_grid_weight g
  rw [h, Int.toNat_natCast] at this
  omega

/-! ### Preservation of well-formedness and the counter invariant by `reduce` -/

theorem solvedB_eq (x : Nat) : (x &&& SOLVED != 0) = x.testBit 0 := by
  have h := hasBit_eq_testBit x 0
  rw [Nat.shiftLeft_zero] at h
  exact h

theorem possCount_mark (c : Nat) : possCount (mark_if_solved c) = possCount c :=
  possCount_congr fun v hv _ => testBit_mark_if_solved c v (by omega)

theorem mark_if_solved_one : mark_if_solved 1 = 1 := by decide

theorem peerNew_proper (c vbits : Nat) (hc : properCell c) (hc0 : c.testBit 0 = false)
    (hvb : vbits.testBit 0 = false) :
    properCell (mark_if_solved (clearPoss c vbits)) := by
  constructor
  · refine (lowBits_iff _).2 fun i hi => ?_
    rw [testBit_peerNew vbits c i (by omega)]
    have hci : c.testBit i = false := (lowBits_iff c).1 hc.1 i hi
    rw [hci]
    rfl
  · intro h0
    rw [testBit_peerNew_zero vbits c hvb, hc0, Bool.false_or, decide_eq_true_eq] at h0
    rw [possCount_mark]
    exact h0

/-- Per-peer analysis of a completed scan from a well-formed solved source:
cells stay well formed, solved cells are untouched, and the scan solves
exactly the cells `solvPeer` counts. -/
theorem peer_analysis (g : Grid) (row col : Fin 9) (v : Nat)
    (hv1 : 1 ≤ v) (hv9 : v ≤ 9) (hWF : WF g)
    (hsv : srcBits g row col = 1 <<< v) (q : Pos)
    (hnb : badPeer row col (srcBits g row col) g q = false) :
    properCell (peerResult row col (srcBits g row col) g q) ∧
    ((g.cells q).testBit 0 = true →
      peerResult row col (srcBits g row col) g q = g.cells q) ∧
    (((peerResult row col (srcBits g row col) g q).testBit 0 = true ∧
        (g.cells q).testBit 0 = false) ↔
      solvPeer row col (srcBits g row col) g q = true) := by
  have hvb0 : (srcBits g row col).testBit 0 = false := land_OCELL_bit_zero _
  rcases ht : touchedPeer row col (srcBits g row col) g q with _ | _
  · unfold peerResult
    rw [ht, if_neg Bool.false_ne_true]
    refine ⟨hWF q, fun _ => rfl, ?_⟩
    constructor
    · rintro ⟨h1, h2⟩
      rw [h1] at h2
      cases h2
    · intro hs
      unfold solvPeer modPeer at hs
      rw [ht, Bool.false_and, Bool.false_and] at hs
      cases hs
  · unfold peerResult
    rw [ht, if_pos rfl]
    rcases hq0 : (g.cells q).testBit 0 with _ | _
    · -- the peer is unsolved
      have hprop := peerNew_proper (g.cells q) (srcBits g row col) (hWF q) hq0 hvb0
      refine ⟨hprop, ?_, ?_⟩
      · intro h
        exact absurd h Bool.false_ne_true
      · constructor
        · rintro ⟨h1, -⟩
          unfold solvPeer modPeer
          rw [ht, Bool.true_and]
          have hne : peerNew (srcBits g row col) g q ≠ g.cells q := by
            intro heq
            rw [heq] at h1
            rw [h1] at hq0
            cases hq0
          rw [Bool.and_eq_true, bne_iff_ne, bne_iff_ne]
          refine ⟨hne, ?_⟩
          rw [Ne, land_solved_eq_zero_iff]
          rw [show peerNew (srcBits g row col) g q =
            mark_if_solved (clearPoss (g.cells q) (srcBits g row col)) from rfl] at h1 ⊢
          rw [h1]
          simp
        · intro hs
          unfold solvPeer at hs
          rw [Bool.and_eq_true] at hs
          obtain ⟨-, h2⟩ := hs
          rw [bne_iff_ne, Ne, land_solved_eq_zero_iff] at h2
          refine ⟨?_, rfl⟩
          rcases hb : (peerNew (srcBits g row col) g q).testBit 0 with _ | _
          · exact absurd hb h2
          · rfl
    · -- the peer is already solved
      obtain ⟨w, hw1, hw9, hweq⟩ := properCell_solved_eq (hWF q) hq0
      rcases eq_or_ne w v with rfl | hwv
      · -- same value as the source: this peer would have tripped the bad check
        exfalso
        have hclear : clearPoss (g.cells q) (srcBits g row col) = 1 := by
          rw [hweq, hsv]
          exact clearPoss_set_value_self w hw1 hw9
        have hbad : badPeer row col (srcBits g row col) g q = true := by
          unfold badPeer
          rw [ht, Bool.true_and]
          rw [show peerNew (srcBits g row col) g q =
            mark_if_solved (clearPoss (g.cells q) (srcBits g row col)) from rfl, hclear,
            mark_if_solved_one]
          rfl
        rw [hnb] at hbad
        cases hbad
      · -- a different value: the scan leaves the cell unchanged
        have hclear : clearPoss (g.cells q) (srcBits g row col) = g.cells q := by
          rw [hweq, hsv]
          exact clearPoss_set_value_other w v hw1 hw9 hv1 hv9 hwv
        have hnew : peerNew (srcBits g row col) g q = g.cells q := by
          rw [show peerNew (srcBits g row col) g q =
            mark_if_solved (clearPoss (g.cells q) (srcBits g row col)) from rfl, hclear,
            hweq, mark_if_solved_set_value w hw1 hw9]
        refine ⟨hnew ▸ hWF q, fun _ => hnew, ?_⟩
        constructor
        · rintro ⟨-, h2⟩
          exact absurd h2.symm Bool.false_ne_true
        · intro hs
          unfold solvPeer modPeer at hs
          rw [Bool.and_eq_true, Bool.and_eq_true] at hs
          obtain ⟨⟨-, hmod⟩, -⟩ := hs
          rw [bne_iff_ne] at hmod
          exact absurd hnew hmod

/-- On a well-formed grid a non-failing `reduce` keeps the grid well formed,
preserves the counter invariant, and never touches a solved cell. -/
theorem reduce_preserve (g : Grid) (row col : Fin 9) (hWF : WF g)
    (hok : (reduce g row col).2 ≠ -1) :
    WF (reduce g row col).1 ∧
    (Inv g → Inv (reduce g row col).1) ∧
    (∀ p : Pos, g.cells p &&& SOLVED ≠ 0 → (reduce g row col).1.cells p = g.cells p) := by
  rcases hs : g.cells (row, col) &&& SOLVED with _ | k
  · rw [reduce_unsolved g row col hs]
    exact ⟨hWF, fun h => h, fun _ _ => rfl⟩
  · have hsol : g.cells (row, col) &&& SOLVED ≠ 0 := by rw [hs]; exact Nat.succ_ne_zero k
    have hnb : hasBadPeer g row col = false := by
      rcases hbp : hasBadPeer g row col with _ | _
      · rfl
      · exact absurd (reduce_spec_bad g row col hsol hbp) hok
    obtain ⟨hc, hcnt, hq⟩ := reduce_spec_ok g row col hsol hnb
    obtain ⟨v, hv1, hv9, hveq⟩ :=
      properCell_solved_eq (hWF (row, col)) ((land_solved_ne_zero_iff _).1 hsol)
    have hsv : srcBits g row col = 1 <<< v := by
      unfold srcBits
      rw [hveq]
      exact set_value_land_OCELL v hv1 hv9
    have hnb' : ∀ p : Pos, badPeer row col (srcBits g row col) g p = false := by
      intro p
      rcases hbp : badPeer row col (srcBits g row col) g p with _ | _
      · rfl
      · exfalso
        have : hasBadPeer g row col = true :=
          List.any_eq_true.2 ⟨p, mem_posList p, hbp⟩
        rw [hnb] at this
        cases this
    have hPA := fun p : Pos => peer_analysis g row col v hv1 hv9 hWF hsv p (hnb' p)
    refine ⟨?_, ?_, ?_⟩
    · intro p
      rw [hq p]
      exact (hPA p).1
    · intro hinv
      have hflags : solvedCells (reduce g row col).1 =
          solvedCells g + solvCount g row col := by
        unfold solvedCells
        have hcong : (posList.countP fun p => (reduce g row col).1.cells p &&& SOLVED != 0) =
            posList.countP fun p => peerResult row col (srcBits g row col) g p &&& SOLVED != 0 :=
          List.countP_congr fun p _ => by rw [hq p]
        rw [hcong]
        have himp : ∀ p ∈ posList, (g.cells p &&& SOLVED != 0) = true →
            (peerResult row col (srcBits g row col) g p &&& SOLVED != 0) = true := by
          intro p _ hp
          rw [solvedB_eq] at hp
          rw [(hPA p).2.1 hp, solvedB_eq]
          exact hp
        rw [countP_eq_add_of_imp _ _ posList himp]
        congr 1
        refine List.countP_congr fun p _ => ?_
        rw [solvedB_eq, solvedB_eq]
        constructor
        · intro hm
          rw [Bool.and_eq_true, Bool.not_eq_true'] at hm
          exact ((hPA p).2.2).1 ⟨hm.1, hm.2⟩
        · intro hm
          obtain ⟨h1, h2⟩ := ((hPA p).2.2).2 hm
          rw [Bool.and_eq_true, Bool.not_eq_true']
          exact ⟨h1, h2⟩
      rw [Inv, hcnt, hflags, hinv]
    · intro p hp
      rw [hq p]
      exact (hPA p).2.1 ((land_solved_ne_zero_iff _).1 hp)

/-! ### The pass over all sources: `reduce_grid` -/

theorem reduceGridStep_failed (st : Grid × Nat × Bool) (p : Pos) (h : st.2.2 = true) :
    reduceGridStep st p = st := by
  unfold reduceGridStep
  rw [if_pos h]

theorem foldl_reduceGridStep_failed (L : List Pos) (st : Grid × Nat × Bool)
    (h : st.2.2 = true) : L.foldl reduceGridStep st = st := by
  induction L with
  | nil => rfl
  | cons p L ih =>
    rw [List.foldl_cons, reduceGridStep_failed st p h, ih]

theorem reduceGridStep_eq (g : Grid) (tot : Nat) (q : Pos) :
    reduceGridStep (g, tot, false) q =
      (if (reduce g q.1 q.2).2 = -1
       then ((reduce g q.1 q.2).1, tot, true)
       else ((reduce g q.1 q.2).1, tot + (reduce g q.1 q.2).2.toNat, false)) := by
  unfold reduceGridStep
  rw [if_neg Bool.false_ne_true]

theorem reduceGridStep_total (st : Grid × Nat × Bool) (p : Pos) :
    st.2.1 ≤ (reduceGridStep st p).2.1 := by
  unfold reduceGridStep
  rcases hf : st.2.2 with _ | _
  · rw [if_neg Bool.false_ne_true]
    show st.2.1 ≤
      (if (reduce st.1 p.1 p.2).2 = -1 then ((reduce st.1 p.1 p.2).1, st.2.1, true)
       else ((reduce st.1 p.1 p.2).1, st.2.1 + (reduce st.1 p.1 p.2).2.toNat, false)).2.1
    by_cases hr : (reduce st.1 p.1 p.2).2 = -1
    · rw [if_pos hr]
    · rw [if_neg hr]
      show st.2.1 ≤ st.2.1 + (reduce st.1 p.1 p.2).2.toNat
      omega
  · rw [if_pos rfl]

theorem foldl_reduceGridStep_total :
    ∀ (L : List Pos) (st : Grid × Nat × Bool), st.2.1 ≤ (L.foldl reduceGridStep st).2.1 := by
  intro L
  induction L with
  | nil => intro st; exact le_refl _
  | cons p L ih =>
    intro st
    rw [List.foldl_cons]
    exact le_trans (reduceGridStep_total st p) (ih (reduceGridStep st p))

theorem reduceGrid_fold_zero :
    ∀ (L : List Pos) (g : Grid) (tot : Nat),
      (L.foldl reduceGridStep (g, tot, false)).2.2 = false →
      (L.foldl reduceGridStep (g, tot, false)).2.1 = tot →
      (L.foldl reduceGridStep (g, tot, false)).1 = g ∧
        ∀ p ∈ L, reduce g p.1 p.2 = (g, 0) := by
  intro L
  induction L with
  | nil =>
    intro g tot _ _
    exact ⟨rfl, fun p hp => absurd hp (List.not_mem_nil p)⟩
  | cons q L ih =>
    intro g tot hok htot
    rw [List.foldl_cons, reduceGridStep_eq g tot q] at hok htot ⊢
    by_cases hr : (reduce g q.1 q.2).2 = -1
    · rw [if_pos hr] at hok
      rw [foldl_reduceGridStep_failed L _ rfl] at hok
      cases hok
    · rw [if_neg hr] at hok htot ⊢
      obtain ⟨n, hn⟩ := (reduce_result_cases g q.1 q.2).resolve_left hr
      have htotle := foldl_reduceGridStep_total L
        ((reduce g q.1 q.2).1, tot + (reduce g q.1 q.2).2.toNat, false)
      have htotle' : tot + (reduce g q.1 q.2).2.toNat ≤
          (List.foldl reduceGridStep
            ((reduce g q.1 q.2).1, tot + (reduce g q.1 q.2).2.toNat, false) L).2.1 := htotle
      have hn0 : (reduce g q.1 q.2).2.toNat = 0 := by
        rw [htot] at htotle'
        omega
      have hr0 : (reduce g q.1 q.2).2 = 0 := by
        rw [hn] at hn0 ⊢
        rw [Int.toNat_natCast] at hn0
        rw [hn0]
        rfl
      have hfix := reduce_zero_fix g q.1 q.2 hr0
      have hg1 : (reduce g q.1 q.2).1 = g := by rw [hfix]
      rw [hg1, hn0, Nat.add_zero] at hok htot ⊢
      obtain ⟨hgrid, hall⟩ := ih g tot hok htot
      refine ⟨hgrid, fun p hp => ?_⟩
      rcases List.mem_cons.1 hp with rfl | hpL
      · exact hfix
      · exact hall p hpL

theorem reduce_grid_result_cases (g : Grid) :
    (reduce_grid g).2 = -1 ∨ ∃ n : Nat, (reduce_grid g).2 = (n : Int) := by
  unfold reduce_grid
  rcases hf : (posList.foldl reduceGridStep (g, 0, false)).2.2 with _ | _
  · rw [reduceFin_snd_ok _ hf]
    exact Or.inr ⟨_, rfl⟩
  · rw [reduceFin_snd_bad _ hf]
    exact Or.inl rfl

theorem reduce_grid_zero_fix (g : Grid) (h : (reduce_grid g).2 = 0) :
    (reduce_grid g).1 = g ∧ ∀ p : Pos, reduce g p.1 p.2 = (g, 0) := by
  rcases hf : (posList.foldl reduceGridStep (g, 0, false)).2.2 with _ | _
  · have h2 : (reduce_grid g).2 = ((posList.foldl reduceGridStep (g, 0, false)).2.1 : Int) := by
      unfold reduce_grid
      rw [reduceFin_snd_ok _ hf]
    have htot : (posList.foldl reduceGridStep (g, 0, false)).2.1 = 0 := by
      rw [h2] at h
      exact_mod_cast h
    obtain ⟨hgrid, hall⟩ := reduceGrid_fold_zero posList g 0 hf htot
    have h1 : (reduce_grid g).1 = g := by
      unfold reduce_grid
      rw [reduceFin_fst]
      exact hgrid
    exact ⟨h1, fun p => hall p (mem_posList p)⟩
  · have h2 : (reduce_grid g).2 = -1 := by
      unfold reduce_grid
      rw [reduceFin_snd_bad _ hf]
    rw [h2] at h
    cases h

theorem reduceGrid_fold_preserve :
    ∀ (L : List Pos) (g : Grid) (tot : Nat), WF g →
      (L.foldl reduceGridStep (g, tot, false)).2.2 = false →
      WF (L.foldl reduceGridStep (g, tot, false)).1 ∧
      (Inv g → Inv (L.foldl reduceGridStep (g, tot, false)).1) ∧
      (∀ p : Pos, g.cells p &&& SOLVED ≠ 0 →
        (L.foldl reduceGridStep (g, tot, false)).1.cells p = g.cells p) := by
  intro L
  induction L with
  | nil =>
    intro g tot hWF _
    exact ⟨hWF, fun h => h, fun _ _ => rfl⟩
  | cons q L ih =>
    intro g tot hWF hok
    rw [List.foldl_cons, reduceGridStep_eq g tot q] at hok ⊢
    by_cases hr : (reduce g q.1 q.2).2 = -1
    · rw [if_pos hr] at hok
      rw [foldl_reduceGridStep_failed L _ rfl] at hok
      cases hok
    · rw [if_neg hr] at hok ⊢
      obtain ⟨hWF', hInv', hpres'⟩ := reduce_preserve g q.1 q.2 hWF hr
      obtain ⟨ihWF, ihInv, ihpres⟩ :=
        ih (reduce g q.1 q.2).1 (tot + (reduce g q.1 q.2).2.toNat) hWF' hok
      refine ⟨ihWF, fun hinv => ihInv (hInv' hinv), fun p hp => ?_⟩
      have hpp := hpres' p hp
      have hsolved' : (reduce g q.1 q.2).1.cells p &&& SOLVED ≠ 0 := by
        rw [hpp]
        exact hp
      rw [ihpres p hsolved', hpp]

theorem reduce_grid_preserve (g : Grid) (hWF : WF g) (hok : (reduce_grid g).2 ≠ -1) :
    WF (reduce_grid g).1 ∧
    (Inv g → Inv (reduce_grid g).1) ∧
    (∀ p : Pos, g.cells p &&& SOLVED ≠ 0 → (reduce_grid g).1.cells p = g.cells p) := by
  rcases hf : (posList.foldl reduceGridStep (g, 0, false)).2.2 with _ | _
  · have h1 : (reduce_grid g).1 = (posList.foldl reduceGridStep (g, 0, false)).1 := by
      unfold reduce_grid
      rw [reduceFin_fst]
    obtain ⟨a, b, c⟩ := reduceGrid_fold_preserve posList g 0 hWF hf
    rw [h1]
    exact ⟨a, b, c⟩
  · exfalso
    refine hok ?_
    unfold reduce_grid
    rw [reduceFin_snd_bad _ hf]

/-! ### The propagate-to-fixpoint loop of `try` -/

theorem unsolvedCount_le_of_gridLe {g g' : Grid} (h : gridLe g g') :
    unsolvedCount g' ≤ unsolvedCount g := by
  refine List.countP_mono_left fun p _ hp => ?_
  rw [beq_iff_eq] at hp ⊢
  rw [land_solved_eq_zero_iff] at hp ⊢
  rcases hg : (g.cells p).testBit 0 with _ | _
  · rfl
  · rw [h.2.1 p hg] at hp
    cases hp

theorem solvedCells_add_unsolved (g : Grid) : solvedCells g + unsolvedCount g = 81 := by
  have h := countP_add_compl (fun p => g.cells p &&& SOLVED != 0) posList
  have hlen : posList.length = 81 := by decide
  rw [hlen] at h
  rw [solvedCells, unsolvedCount, ← h]
  congr 1
  refine List.countP_congr fun p _ => ?_
  rcases h' : g.cells p &&& SOLVED with _ | n <;> simp

theorem reduceLoopF_succ (fuel : Nat) (g : Grid) :
    reduceLoopF (fuel + 1) g =
      if (reduce_grid g).2 = -1 then some none
      else if (reduce_grid g).2 = 0 then some (some (reduce_grid g).1)
      else reduceLoopF fuel (reduce_grid g).1 := rfl

theorem reduce_grid_pos_of_ne {g : Grid} (h1 : (reduce_grid g).2 ≠ -1)
    (h2 : (reduce_grid g).2 ≠ 0) : ∃ n : Nat, (reduce_grid g).2 = (n : Int) ∧ 0 < n := by
  obtain ⟨n, hn⟩ := (reduce_grid_result_cases g).resolve_left h1
  refine ⟨n, hn, ?_⟩
  rcases Nat.eq_zero_or_pos n with rfl | hp
  · rw [hn] at h2
    exact absurd rfl h2
  · exact hp

theorem reduceLoopF_isSome :
    ∀ (fuel : Nat) (g : Grid), gridWeight g < fuel → (reduceLoopF fuel g).isSome = true := by
  intro fuel
  induction fuel with
  | zero => intro g h; omega
  | succ fuel ih =>
    intro g h
    rw [reduceLoopF_succ]
    by_cases h1 : (reduce_grid g).2 = -1
    · rw [if_pos h1]
      rfl
    · rw [if_neg h1]
      by_cases h2 : (reduce_grid g).2 = 0
      · rw [if_pos h2]
        rfl
      · rw [if_neg h2]
        obtain ⟨n, hn, hp⟩ := reduce_grid_pos_of_ne h1 h2
        have hlt := reduce_grid_weight_lt g n hn hp
        exact ih (reduce_grid g).1 (by omega)

theorem reduceLoopF_irrel :
    ∀ (f1 f2 : Nat) (g : Grid), gridWeight g < f1 → gridWeight g < f2 →
      reduceLoopF f1 g = reduceLoopF f2 g := by
  intro f1
  induction f1 with
  | zero => intro f2 g h1 _; omega
  | succ f1 ih =>
    intro f2 g h1 h2
    rcases f2 with _ | f2
    · omega
    · rw [reduceLoopF_succ, reduceLoopF_succ]
      by_cases ha : (reduce_grid g).2 = -1
      · rw [if_pos ha, if_pos ha]
      · rw [if_neg ha, if_neg ha]
        by_cases hb : (reduce_grid g).2 = 0
        · rw [if_pos hb, if_pos hb]
        · rw [if_neg hb, if_neg hb]
          obtain ⟨n, hn, hp⟩ := reduce_grid_pos_of_ne ha hb
          have hlt := reduce_grid_weight_lt g n hn hp
          exact ih f2 (reduce_grid g).1 (by omega) (by omega)

theorem reduceLoopF_spec :
    ∀ (fuel : Nat) (g wg : Grid), reduceLoopF fuel g = some (some wg) →
      reduce_grid wg = (wg, 0) ∧ gridLe g wg ∧
      (WF g → WF wg ∧ (Inv g → Inv wg) ∧
        (∀ p : Pos, g.cells p &&& SOLVED ≠ 0 → wg.cells p = g.cells p)) := by
  intro fuel
  induction fuel with
  | zero => intro g wg h; cases h
  | succ fuel ih =>
    intro g wg h
    rw [reduceLoopF_succ] at h
    by_cases h1 : (reduce_grid g).2 = -1
    · rw [if_pos h1] at h
      cases Option.some.inj h
    · rw [if_neg h1] at h
      by_cases h2 : (reduce_grid g).2 = 0
      · rw [if_pos h2] at h
        have hwg : (reduce_grid g).1 = wg := Option.some.inj (Option.some.inj h)
        obtain ⟨hgrid, -⟩ := reduce_grid_zero_fix g h2
        have hgwg : wg = g := by rw [← hwg, hgrid]
        subst hgwg
        have hpair : reduce_grid wg = (wg, 0) := by
          calc reduce_grid wg = ((reduce_grid wg).1, (reduce_grid wg).2) := rfl
            _ = (wg, 0) := by rw [hgrid, h2]
        exact ⟨hpair, gridLe_refl wg, fun hWF => ⟨hWF, fun h => h, fun _ _ => rfl⟩⟩
      · rw [if_neg h2] at h
        obtain ⟨hfix, hle, hpres⟩ := ih (reduce_grid g).1 wg h
        refine ⟨hfix, gridLe_trans (reduce_grid_gridLe g) hle, fun hWF => ?_⟩
        obtain ⟨hWF', hInv', hsolv'⟩ := reduce_grid_preserve g hWF h1
        obtain ⟨a, b, c⟩ := hpres hWF'
        refine ⟨a, fun hinv => b (hInv' hinv), fun p hp => ?_⟩
        have hpp := hsolv' p hp
        have hp' : (reduce_grid g).1.cells p &&& SOLVED ≠ 0 := by rw [hpp]; exact hp
        rw [c p hp', hpp]

theorem reduceLoop_some_spec (g wg : Grid) (h : reduceLoop g = some wg) :
    reduce_grid wg = (wg, 0) ∧ gridLe g wg ∧
    (WF g → WF wg ∧ (Inv g → Inv wg) ∧
      (∀ p : Pos, g.cells p &&& SOLVED ≠ 0 → wg.cells p = g.cells p)) := by
  unfold reduceLoop at h
  rcases hF : reduceLoopF (gridWeight g + 1) g with _ | o
  · have := reduceLoopF_isSome (gridWeight g + 1) g (by omega)
    rw [hF] at this
    cases this
  · rw [hF] at h
    have ho : o = some wg := h
    rw [ho] at hF
    exact reduceLoopF_spec (gridWeight g + 1) g wg hF

/-! ### Characterization of `choose_target_cell` -/

/-- The loop body of `choose_target_cell` on the state (best count, best cell). -/
def ctStep (g : Grid) (st : Nat × Pos) (p : Pos) : Nat × Pos :=
  if g.cells p &&& SOLVED ≠ 0 then st
  else if possCount (g.cells p) < st.1 then (possCount (g.cells p), p) else st

theorem choose_target_cell_eq (g : Grid) :
    choose_target_cell g = (posList.foldl (ctStep g) (9, ((0 : Fin 9), (0 : Fin 9)))).2 := rfl

theorem ct_fold_char (g : Grid) :
    ∀ (L : List Pos) (t₀ : Nat) (p₀ : Pos),
      (L.foldl (ctStep g) (t₀, p₀)).1 ≤ t₀ ∧
      (∀ q ∈ L, g.cells q &&& SOLVED = 0 →
        (L.foldl (ctStep g) (t₀, p₀)).1 ≤ possCount (g.cells q)) ∧
      (((L.foldl (ctStep g) (t₀, p₀)).1 = t₀ ∧ (L.foldl (ctStep g) (t₀, p₀)).2 = p₀ ∧
          ∀ q ∈ L, g.cells q &&& SOLVED = 0 → t₀ ≤ possCount (g.cells q)) ∨
       ((L.foldl (ctStep g) (t₀, p₀)).1 < t₀ ∧
          ∃ L₁ L₂, L = L₁ ++ (L.foldl (ctStep g) (t₀, p₀)).2 :: L₂ ∧
          g.cells (L.foldl (ctStep g) (t₀, p₀)).2 &&& SOLVED = 0 ∧
          possCount (g.cells (L.foldl (ctStep g) (t₀, p₀)).2) =
            (L.foldl (ctStep g) (t₀, p₀)).1 ∧
          ∀ q ∈ L₁, g.cells q &&& SOLVED = 0 →
            (L.foldl (ctStep g) (t₀, p₀)).1 < possCount (g.cells q))) := by
  intro L
  induction L with
  | nil =>
    intro t₀ p₀
    exact ⟨le_refl _, fun q hq => absurd hq (List.not_mem_nil q),
      Or.inl ⟨rfl, rfl, fun q hq => absurd hq (List.not_mem_nil q)⟩⟩
  | cons p L ih =>
    intro t₀ p₀
    rw [List.foldl_cons]
    by_cases hs : g.cells p &&& SOLVED ≠ 0
    · have hstep : ctStep g (t₀, p₀) p = (t₀, p₀) := by
        unfold ctStep
        rw [if_pos hs]
      rw [hstep]
      obtain ⟨ih1, ih2, ih3⟩ := ih t₀ p₀
      refine ⟨ih1, ?_, ?_⟩
      · intro q hq hqs
        rcases List.mem_cons.1 hq with rfl | hqL
        · exact absurd hqs hs
        · exact ih2 q hqL hqs
      · rcases ih3 with ⟨h1, h2, h3⟩ | ⟨h1, L₁, L₂, hdec, h2, h3, h4⟩
        · refine Or.inl ⟨h1, h2, fun q hq hqs => ?_⟩
          rcases List.mem_cons.1 hq with rfl | hqL
          · exact absurd hqs hs
          · exact h3 q hqL hqs
        · refine Or.inr ⟨h1, p :: L₁, L₂, congrArg (List.cons p) hdec, h2, h3,
            fun q hq hqs => ?_⟩
          rcases List.mem_cons.1 hq with rfl | hqL
          · exact absurd hqs hs
          · exact h4 q hqL hqs
    · have hs' : g.cells p &&& SOLVED = 0 := by
        by_contra hcon
        exact hs hcon
      by_cases hlt : possCount (g.cells p) < t₀
      · have hstep : ctStep g (t₀, p₀) p = (possCount (g.cells p), p) := by
          unfold ctStep
          rw [if_neg (by rw [hs']; exact fun hh => hh rfl), if_pos hlt]
        rw [hstep]
        obtain ⟨ih1, ih2, ih3⟩ := ih (possCount (g.cells p)) p
        refine ⟨le_trans ih1 (by omega), ?_, ?_⟩
        · intro q hq hqs
          rcases List.mem_cons.1 hq with rfl | hqL
          · exact ih1
          · exact ih2 q hqL hqs
        · rcases ih3 with ⟨h1, h2, h3⟩ | ⟨h1, L₁, L₂, hdec, h2, h3, h4⟩
          · refine Or.inr ⟨by omega, [], L, by simp [h2], by rw [h2]; exact hs', ?_,
              fun q hq _ => absurd hq (List.not_mem_nil q)⟩
            rw [h1, h2]
          · refine Or.inr ⟨by omega, p :: L₁, L₂, congrArg (List.cons p) hdec,
              h2, h3, fun q hq hqs => ?_⟩
            rcases List.mem_cons.1 hq with rfl | hqL
            · omega
            · exact h4 q hqL hqs
      · have hstep : ctStep g (t₀, p₀) p = (t₀, p₀) := by
          unfold ctStep
          rw [if_neg (by rw [hs']; exact fun hh => hh rfl), if_neg hlt]
        rw [hstep]
        obtain ⟨ih1, ih2, ih3⟩ := ih t₀ p₀
        refine ⟨ih1, ?_, ?_⟩
        · intro q hq hqs
          rcases List.mem_cons.1 hq with rfl | hqL
          · omega
          · exact ih2 q hqL hqs
        · rcases ih3 with ⟨h1, h2, h3⟩ | ⟨h1, L₁, L₂, hdec, h2, h3, h4⟩
          · refine Or.inl ⟨h1, h2, fun q hq hqs => ?_⟩
            rcases List.mem_cons.1 hq with rfl | hqL
            · omega
            · exact h3 q hqL hqs
          · refine Or.inr ⟨h1, p :: L₁, L₂, congrArg (List.cons p) hdec, h2, h3,
              fun q hq hqs => ?_⟩
            rcases List.mem_cons.1 hq with rfl | hqL
            · omega
            · exact h4 q hqL hqs

theorem choose_target_min (g : Grid)
    (h : ∃ p : Pos, g.cells p &&& SOLVED = 0 ∧ possCount (g.cells p) < 9) :
    g.cells (choose_target_cell g) &&& SOLVED = 0 ∧
    (∀ q : Pos, g.cells q &&& SOLVED = 0 →
      possCount (g.cells (choose_target_cell g)) ≤ possCount (g.cells q)) ∧
    (∀ q : Pos, rmLt q (choose_target_cell g) → g.cells q &&& SOLVED = 0 →
      possCount (g.cells (choose_target_cell g)) < possCount (g.cells q)) := by
  obtain ⟨p, hps, hplt⟩ := h
  obtain ⟨hc1, hc2, hc3⟩ := ct_fold_char g posList 9 ((0 : Fin 9), (0 : Fin 9))
  rcases hc3 with ⟨h1, -, h3⟩ | ⟨-, L₁, L₂, hdec, h2, h3, h4⟩
  · exfalso
    have := h3 p (mem_posList p) hps
    omega
  · rw [choose_target_cell_eq]
    refine ⟨h2, ?_, ?_⟩
    · intro q hq
      rw [h3]
      exact hc2 q (mem_posList q) hq
    · intro q hlt hq
      rw [h3]
      have hpair := posList_pairwise_rmLt
      rw [hdec] at hpair
      rw [List.pairwise_append] at hpair
      obtain ⟨-, hp2, hp3⟩ := hpair
      have hqL₁ : q ∈ L₁ := by
        have hqmem : q ∈ posList := mem_posList q
        rw [hdec] at hqmem
        rcases List.mem_append.1 hqmem with hq1 | hq2
        · exact hq1
        · rcases List.mem_cons.1 hq2 with rfl | hq3
          · exact absurd hlt (rmLt_asymm hlt)
          · exfalso
            have := List.rel_of_pairwise_cons hp2 hq3
            exact rmLt_asymm this hlt
      exact h4 q hqL₁ hq

theorem choose_target_default (g : Grid)
    (h : ∀ p : Pos, g.cells p &&& SOLVED = 0 → possCount (g.cells p) = 9) :
    choose_target_cell g = ((0 : Fin 9), (0 : Fin 9)) := by
  obtain ⟨hc1, hc2, hc3⟩ := ct_fold_char g posList 9 ((0 : Fin 9), (0 : Fin 9))
  rcases hc3 with ⟨-, h2, -⟩ | ⟨h1, L₁, L₂, hdec, h2, h3, -⟩
  · rw [choose_target_cell_eq]
    exact h2
  · exfalso
    have := h (posList.foldl (ctStep g) (9, ((0 : Fin 9), (0 : Fin 9)))).2 h2
    omega

/-! ### At a propagation fixpoint the branching target is an unsolved cell -/

theorem possCount_le_one_of_unique (c v : Nat)
    (h : ∀ w, 1 ≤ w → w ≤ 9 → c.testBit w = true → w = v) : possCount c ≤ 1 := by
  rw [possCount_testBit]
  have hmono : ∀ w ∈ List.range' 1 9, c.testBit w = true → (w == v) = true := by
    intro w hw hcb
    rw [List.mem_range'] at hw
    rw [beq_iff_eq]
    exact h w (by omega) (by omega) hcb
  calc (List.range' 1 9).countP (fun w => c.testBit w)
      ≤ (List.range' 1 9).countP (fun w => w == v) := List.countP_mono_left hmono
    _ = (List.range' 1 9).count v := (List.count_eq_countP v (List.range' 1 9)).symm
    _ ≤ 1 := List.nodup_iff_count_le_one.1 (List.nodup_range' ..) v

theorem possCount_le_eight_of_missing (c v : Nat) (hv1 : 1 ≤ v) (hv9 : v ≤ 9)
    (h : c.testBit v = false) : possCount c ≤ 8 := by
  rw [possCount_testBit]
  have hsum := countP_add_compl (fun w => c.testBit w) (List.range' 1 9)
  have hpos : 0 < (List.range' 1 9).countP (fun w => !c.testBit w) := by
    rw [List.countP_pos]
    exact ⟨v, mem_range_one_nine hv1 hv9, by rw [h]; rfl⟩
  have hlen : (List.range' 1 9).length = 9 := by decide
  rw [hlen] at hsum
  omega

theorem fixpoint_source_stable (g : Grid) (src : Pos)
    (hfix : reduce g src.1 src.2 = (g, 0))
    (hsol : g.cells (src.1, src.2) &&& SOLVED ≠ 0) :
    ∀ q : Pos, badPeer src.1 src.2 (srcBits g src.1 src.2) g q = false ∧
      modPeer src.1 src.2 (srcBits g src.1 src.2) g q = false := by
  have h2 : (reduce g src.1 src.2).2 = 0 := by rw [hfix]
  have hne : (reduce g src.1 src.2).2 ≠ -1 := by rw [h2]; exact fun hh => by cases hh
  have hnb : hasBadPeer g src.1 src.2 = false := by
    rcases hbp : hasBadPeer g src.1 src.2 with _ | _
    · rfl
    · exact absurd (reduce_spec_bad g src.1 src.2 hsol hbp) hne
  obtain ⟨hc, -, -⟩ := reduce_spec_ok g src.1 src.2 hsol hnb
  have hmod : modCount g src.1 src.2 = 0 := by
    rw [hc] at h2
    exact_mod_cast h2
  intro q
  constructor
  · rcases hbq : badPeer src.1 src.2 (srcBits g src.1 src.2) g q with _ | _
    · rfl
    · exfalso
      have : hasBadPeer g src.1 src.2 = true := List.any_eq_true.2 ⟨q, mem_posList q, hbq⟩
      rw [hnb] at this
      cases this
  · rcases hmq : modPeer src.1 src.2 (srcBits g src.1 src.2) g q with _ | _
    · rfl
    · exfalso
      have := List.countP_eq_zero.1 hmod q (mem_posList q)
      rw [hmq] at this
      exact this rfl

theorem fixpoint_unsolved_peer_bound (g : Grid) (src q : Pos) (hWF : WF g)
    (hfix : reduce g src.1 src.2 = (g, 0))
    (hsol : g.cells (src.1, src.2) &&& SOLVED ≠ 0)
    (hqu : g.cells q &&& SOLVED = 0) (hqs : q ≠ src)
    (hpeer : isPeer src.1 src.2 q = true) :
    possCount (g.cells q) ≤ 8 := by
  obtain ⟨v, hv1, hv9, hveq⟩ :=
    properCell_solved_eq (hWF (src.1, src.2)) ((land_solved_ne_zero_iff _).1 hsol)
  have hsv : srcBits g src.1 src.2 = 1 <<< v := by
    unfold srcBits
    rw [hveq]
    exact set_value_land_OCELL v hv1 hv9
  obtain ⟨hbad, hmod⟩ := fixpoint_source_stable g src hfix hsol q
  have hqsrc : q ≠ (src.1, src.2) := hqs
  rcases hcl : clearPoss (g.cells q) (srcBits g src.1 src.2) with _ | m
  · -- the branch was never taken: the cell is contained in the source value bit
    have hsub : ∀ w, 1 ≤ w → w ≤ 9 → (g.cells q).testBit w = true → w = v := by
      intro w hw1 hw9 hwb
      by_contra hwv
      have hbit : (clearPoss (g.cells q) (srcBits g src.1 src.2)).testBit w = true := by
        rw [testBit_clearPoss, hwb, hsv, one_shiftLeft, Nat.testBit_two_pow,
          decide_eq_false (by omega : ¬ v = w)]
        rfl
      rw [hcl, Nat.zero_testBit] at hbit
      cases hbit
    have := possCount_le_one_of_unique (g.cells q) v hsub
    omega
  · -- the branch was taken but changed nothing: the cell misses the source value
    have htouch : touchedPeer src.1 src.2 (srcBits g src.1 src.2) g q = true := by
      unfold touchedPeer
      rw [decide_eq_true hqsrc, hpeer, hcl]
      rfl
    have hnew : peerNew (srcBits g src.1 src.2) g q = g.cells q := by
      unfold modPeer at hmod
      rw [htouch, Bool.true_and] at hmod
      simpa using hmod
    have hmiss : (g.cells q).testBit v = false := by
      rcases hb : (g.cells q).testBit v with _ | _
      · rfl
      · exfalso
        have : (peerNew (srcBits g src.1 src.2) g q).testBit v = false := by
          rw [show peerNew (srcBits g src.1 src.2) g q =
            mark_if_solved (clearPoss (g.cells q) (srcBits g src.1 src.2)) from rfl,
            testBit_peerNew _ _ v (by omega), hsv, one_shiftLeft, Nat.testBit_two_pow]
          simp
        rw [hnew, hb] at this
        cases this
    exact possCount_le_eight_of_missing (g.cells q) v hv1 hv9 hmiss

theorem fixpoint_target_unsolved (g : Grid) (hWF : WF g) (hInv : Inv g)
    (hfix : ∀ p : Pos, reduce g p.1 p.2 = (g, 0)) (hlt : g.solved_counter < 81) :
    g.cells (choose_target_cell g) &&& SOLVED = 0 := by
  have hunsolved : ∃ u : Pos, g.cells u &&& SOLVED = 0 := by
    have hsum := solvedCells_add_unsolved g
    have hcnt : 0 < unsolvedCount g := by
      rw [Inv] at hInv
      omega
    rw [unsolvedCount, List.countP_pos] at hcnt
    obtain ⟨u, -, hu⟩ := hcnt
    exact ⟨u, by rwa [beq_iff_eq] at hu⟩
  obtain ⟨u, hu⟩ := hunsolved
  by_cases hsolcell : ∃ s : Pos, g.cells s &&& SOLVED ≠ 0
  · -- some solved cell exists: some unsolved cell is a peer of a solved cell
    obtain ⟨s, hs⟩ := hsolcell
    have hkey : ∃ p : Pos, g.cells p &&& SOLVED = 0 ∧ possCount (g.cells p) < 9 := by
      rcases hm : g.cells (s.1, u.2) &&& SOLVED with _ | k
      · -- the meeting cell is unsolved and shares a row with s
        have hne : (s.1, u.2) ≠ s := by
          intro hh
          rw [hh] at hm
          rw [hm] at hs
          exact hs rfl
        have hpeer : isPeer s.1 s.2 (s.1, u.2) = true := by
          unfold isPeer
          rw [show ((s.1, u.2) : Pos).1 = s.1 from rfl]
          simp
        have := fixpoint_unsolved_peer_bound g s (s.1, u.2) hWF (hfix s)
          (by rw [show ((s.1, s.2) : Pos) = s from rfl]; exact hs) hm hne hpeer
        exact ⟨(s.1, u.2), hm, by omega⟩
      · -- the meeting cell is solved and shares a column with u
        have hmsol : g.cells (s.1, u.2) &&& SOLVED ≠ 0 := by
          rw [hm]
          exact Nat.succ_ne_zero k
        have hne : u ≠ (s.1, u.2) := by
          intro hh
          rw [← hh] at hmsol
          exact hmsol hu
        have hpeer : isPeer s.1 u.2 u = true := by
          unfold isPeer
          simp
        have := fixpoint_unsolved_peer_bound g (s.1, u.2) u hWF (hfix (s.1, u.2))
          hmsol hu hne hpeer
        exact ⟨u, hu, by omega⟩
    exact (choose_target_min g hkey).1
  · -- no solved cell at all: every cell, the returned one included, is unsolved
    push_neg at hsolcell
    exact hsolcell (choose_target_cell g)

/-! ### The guessing loop and the recursive solver -/

/-- One iteration of the `for (k=1; k<=MAX_VAL; k++)` guessing loop. -/
def guessStep (next : Grid → Option Grid) (wg : Grid) (t : Pos) (wc : Nat)
    (acc : Option Grid) (k : Nat) : Option Grid :=
  match acc with
  | some og => some og
  | none =>
    if wc &&& (1 <<< k) != 0 then
      next { cells := Function.update wg.cells t (set_value k),
             solved_counter := wg.solved_counter }
    else none

theorem tryGuess_eq (next : Grid → Option Grid) (wg : Grid) (t : Pos) (wc : Nat) :
    tryGuess next wg t wc = (List.range' 1 9).foldl (guessStep next wg t wc) none := rfl

theorem guessFold_some (next : Grid → Option Grid) (wg : Grid) (t : Pos) (wc : Nat) :
    ∀ (L : List Nat) (acc : Option Grid) (og : Grid),
      L.foldl (guessStep next wg t wc) acc = some og →
      acc = some og ∨ ∃ k ∈ L, (wc &&& (1 <<< k) != 0) = true ∧
        next { cells := Function.update wg.cells t (set_value k),
               solved_counter := wg.solved_counter } = some og := by
  intro L
  induction L with
  | nil => intro acc og h; exact Or.inl h
  | cons k L ih =>
    intro acc og h
    rw [List.foldl_cons] at h
    rcases acc with _ | r
    · rcases ihres : L.foldl (guessStep next wg t wc) (guessStep next wg t wc none k)
        with _ | r'
      · rw [ihres] at h
        cases h
      · rw [ihres] at h
        rcases ih (guessStep next wg t wc none k) og (by rw [ihres, h]) with hacc | ⟨k', hk', hb, hn⟩
        · unfold guessStep at hacc
          rcases hbit : (wc &&& (1 <<< k) != 0) with _ | _
          · rw [hbit] at hacc
            simp at hacc
          · rw [hbit] at hacc
            exact Or.inr ⟨k, List.mem_cons_self k L, hbit, hacc⟩
        · exact Or.inr ⟨k', List.mem_cons_of_mem k hk', hb, hn⟩
    · have hstep : guessStep next wg t wc (some r) k = some r := rfl
      rw [hstep] at h
      rcases ih (some r) og h with hacc | ⟨k', hk', hb, hn⟩
      · exact Or.inl hacc
      · exact Or.inr ⟨k', List.mem_cons_of_mem k hk', hb, hn⟩

theorem guessFold_congr (next next' : Grid → Option Grid) (wg : Grid) (t : Pos) (wc : Nat)
    (L : List Nat)
    (h : ∀ k ∈ L, (wc &&& (1 <<< k) != 0) = true →
      next { cells := Function.update wg.cells t (set_value k),
             solved_counter := wg.solved_counter } =
      next' { cells := Function.update wg.cells t (set_value k),
              solved_counter := wg.solved_counter }) :
    ∀ acc, L.foldl (guessStep next wg t wc) acc = L.foldl (guessStep next' wg t wc) acc := by
  induction L with
  | nil => intro acc; rfl
  | cons k L ih =>
    intro acc
    rw [List.foldl_cons, List.foldl_cons]
    have hstep : guessStep next wg t wc acc k = guessStep next' wg t wc acc k := by
      rcases acc with _ | r
      · unfold guessStep
        rcases hbit : (wc &&& (1 <<< k) != 0) with _ | _
        · rfl
        · rw [if_pos rfl, if_pos rfl]
          exact h k (List.mem_cons_self k L) hbit
      · rfl
    rw [hstep]
    exact ih (fun k' hk' => h k' (List.mem_cons_of_mem k hk')) _

theorem trySolve_succ (fuel : Nat) (ig : Grid) :
    trySolve (fuel + 1) ig =
      match reduceLoop ig with
      | none => none
      | some wg =>
        if wg.solved_counter = 9 * 9 then some wg
        else
          tryGuess (trySolve fuel)
            { cells := wg.cells, solved_counter := wg.solved_counter + 1 }
            (choose_target_cell wg) (wg.cells (choose_target_cell wg)) := rfl

/-- The grid passed to the recursive call for guess `k`. -/
def guessGrid (wg : Grid) (t : Pos) (k : Nat) : Grid :=
  { cells := Function.update wg.cells t (set_value k),
    solved_counter := wg.solved_counter + 1 }

theorem guessGrid_cells_eq (wg : Grid) (t : Pos) (k : Nat) :
    ({ cells := Function.update
        ({ cells := wg.cells, solved_counter := wg.solved_counter + 1 } : Grid).cells
        t (set_value k),
       solved_counter :=
        ({ cells := wg.cells, solved_counter := wg.solved_counter + 1 } : Grid).solved_counter }
      : Grid) = guessGrid wg t k := rfl

theorem guessGrid_WF (wg : Grid) (t : Pos) (k : Nat) (hWF : WF wg)
    (hk1 : 1 ≤ k) (hk9 : k ≤ 9) : WF (guessGrid wg t k) := by
  intro p
  show properCell (Function.update wg.cells t (set_value k) p)
  rcases eq_or_ne p t with rfl | hpt
  · rw [Function.update_same]
    exact set_value_proper k hk1 hk9
  · rw [Function.update_noteq hpt]
    exact hWF p

theorem guessGrid_Inv (wg : Grid) (t : Pos) (k : Nat) (hInv : Inv wg)
    (ht : wg.cells t &&& SOLVED = 0) : Inv (guessGrid wg t k) := by
  have hupd := countP_congr_update posList
    (fun p => wg.cells p &&& SOLVED != 0)
    (fun p => (guessGrid wg t k).cells p &&& SOLVED != 0) t
    (fun p _ hpt => by
      show (wg.cells p &&& SOLVED != 0) = (Function.update wg.cells t (set_value k) p &&& SOLVED != 0)
      rw [Function.update_noteq hpt])
    posList_nodup (mem_posList t)
  have hnew : ((guessGrid wg t k).cells t &&& SOLVED != 0) = true := by
    show (Function.update wg.cells t (set_value k) t &&& SOLVED != 0) = true
    rw [Function.update_same, solvedB_eq, set_value_solved]
  have hold : (wg.cells t &&& SOLVED != 0) = false := by
    rw [ht]
    rfl
  have hupd' : posList.countP (fun p => wg.cells p &&& SOLVED != 0) +
      (if ((guessGrid wg t k).cells t &&& SOLVED != 0) = true then 1 else 0) =
      posList.countP (fun p => (guessGrid wg t k).cells p &&& SOLVED != 0) +
      (if (wg.cells t &&& SOLVED != 0) = true then 1 else 0) := hupd
  rw [hnew, hold, if_pos rfl, if_neg Bool.false_ne_true] at hupd'
  show wg.solved_counter + 1 = solvedCells (guessGrid wg t k)
  rw [Inv] at hInv
  unfold solvedCells at hInv ⊢
  omega

theorem guessGrid_unsolved (wg : Grid) (t : Pos) (k : Nat)
    (ht : wg.cells t &&& SOLVED = 0) :
    unsolvedCount (guessGrid wg t k) + 1 = unsolvedCount wg := by
  have hupd := countP_congr_update posList
    (fun p => wg.cells p &&& SOLVED == 0)
    (fun p => (guessGrid wg t k).cells p &&& SOLVED == 0) t
    (fun p _ hpt => by
      show (wg.cells p &&& SOLVED == 0) = (Function.update wg.cells t (set_value k) p &&& SOLVED == 0)
      rw [Function.update_noteq hpt])
    posList_nodup (mem_posList t)
  have hnew : ((guessGrid wg t k).cells t &&& SOLVED == 0) = false := by
    show (Function.update wg.cells t (set_value k) t &&& SOLVED == 0) = false
    rw [Function.update_same]
    have := set_value_solved k
    rw [← solvedB_eq] at this
    rcases hb : (set_value k &&& SOLVED == 0) with _ | _
    · rfl
    · rw [beq_iff_eq] at hb
      rw [hb] at this
      cases this
  have hold : (wg.cells t &&& SOLVED == 0) = true := by
    rw [ht]
    rfl
  have hupd' : posList.countP (fun p => wg.cells p &&& SOLVED == 0) +
      (if ((guessGrid wg t k).cells t &&& SOLVED == 0) = true then 1 else 0) =
      posList.countP (fun p => (guessGrid wg t k).cells p &&& SOLVED == 0) +
      (if (wg.cells t &&& SOLVED == 0) = true then 1 else 0) := hupd
  rw [hnew, hold, if_neg Bool.false_ne_true, if_pos rfl] at hupd'
  unfold unsolvedCount
  omega

theorem trySolve_succ_none (fuel : Nat) (ig : Grid) (h : reduceLoop ig = none) :
    trySolve (fuel + 1) ig = none := by
  rw [trySolve_succ, h]

theorem trySolve_succ_some (fuel : Nat) (ig wg : Grid) (h : reduceLoop ig = some wg) :
    trySolve (fuel + 1) ig =
      if wg.solved_counter = 9 * 9 then some wg
      else
        tryGuess (trySolve fuel)
          { cells := wg.cells, solved_counter := wg.solved_counter + 1 }
          (choose_target_cell wg) (wg.cells (choose_target_cell wg)) := by
  rw [trySolve_succ, h]

theorem trySolve_sound :
    ∀ (fuel : Nat) (g og : Grid), WF g → Inv g → trySolve fuel g = some og →
      WF og ∧ Inv og ∧ og.solved_counter = 81 ∧
      (∀ p : Pos, reduce og p.1 p.2 = (og, 0)) := by
  intro fuel
  induction fuel with
  | zero => intro g og _ _ h; cases h
  | succ fuel ih =>
    intro g og hWF hInv h
    rcases hrl : reduceLoop g with _ | wg
    · rw [trySolve_succ_none fuel g hrl] at h
      cases h
    · rw [trySolve_succ_some fuel g wg hrl] at h
      obtain ⟨hfixp, hle, hpres⟩ := reduceLoop_some_spec g wg hrl
      obtain ⟨hWFw, hInvw, hsolvw⟩ := hpres hWF
      have hInvw' := hInvw hInv
      have hfixall : ∀ p : Pos, reduce wg p.1 p.2 = (wg, 0) :=
        (reduce_grid_zero_fix wg (by rw [hfixp])).2
      by_cases hdone : wg.solved_counter = 9 * 9
      · rw [if_pos hdone] at h
        have hog : wg = og := Option.some.inj h
        subst hog
        exact ⟨hWFw, hInvw', by omega, hfixall⟩
      · rw [if_neg hdone] at h
        have hcnt81 : wg.solved_counter ≤ 81 := by
          rw [Inv] at hInvw'
          have := solvedCells_add_unsolved wg
          omega
        have hlt : wg.solved_counter < 81 := by omega
        have htgt := fixpoint_target_unsolved wg hWFw hInvw' hfixall hlt
        rw [tryGuess_eq] at h
        rcases guessFold_some (trySolve fuel) _ _ _ _ _ _ h with hacc | ⟨k, hkmem, hbit, hrec⟩
        · cases hacc
        · rw [List.mem_range'] at hkmem
          obtain ⟨i, hi9, hik⟩ := hkmem
          have hk1 : 1 ≤ k := by omega
          have hk9 : k ≤ 9 := by omega
          rw [guessGrid_cells_eq] at hrec
          exact ih (guessGrid wg (choose_target_cell wg) k) og
            (guessGrid_WF wg _ k hWFw hk1 hk9)
            (guessGrid_Inv wg _ k hInvw' htgt) hrec

theorem trySolve_clues :
    ∀ (fuel : Nat) (g og : Grid), WF g → Inv g → trySolve fuel g = some og →
      ∀ p : Pos, g.cells p &&& SOLVED ≠ 0 → og.cells p = g.cells p := by
  intro fuel
  induction fuel with
  | zero => intro g og _ _ h; cases h
  | succ fuel ih =>
    intro g og hWF hInv h
    rcases hrl : reduceLoop g with _ | wg
    · rw [trySolve_succ_none fuel g hrl] at h
      cases h
    · rw [trySolve_succ_some fuel g wg hrl] at h
      obtain ⟨hfixp, hle, hpres⟩ := reduceLoop_some_spec g wg hrl
      obtain ⟨hWFw, hInvw, hsolvw⟩ := hpres hWF
      have hInvw' := hInvw hInv
      have hfixall : ∀ p : Pos, reduce wg p.1 p.2 = (wg, 0) :=
        (reduce_grid_zero_fix wg (by rw [hfixp])).2
      by_cases hdone : wg.solved_counter = 9 * 9
      · rw [if_pos hdone] at h
        have hog : wg = og := Option.some.inj h
        subst hog
        intro p hp
        exact hsolvw p hp
      · rw [if_neg hdone] at h
        have hcnt81 : wg.solved_counter ≤ 81 := by
          rw [Inv] at hInvw'
          have := solvedCells_add_unsolved wg
          omega
        have hlt : wg.solved_counter < 81 := by omega
        have htgt := fixpoint_target_unsolved wg hWFw hInvw' hfixall hlt
        rw [tryGuess_eq] at h
        rcases guessFold_some (trySolve fuel) _ _ _ _ _ _ h with hacc | ⟨k, hkmem, hbit, hrec⟩
        · cases hacc
        · rw [List.mem_range'] at hkmem
          obtain ⟨i, hi9, hik⟩ := hkmem
          have hk1 : 1 ≤ k := by omega
          have hk9 : k ≤ 9 := by omega
          rw [guessGrid_cells_eq] at hrec
          intro p hp
          have hpw : wg.cells p = g.cells p := hsolvw p hp
          have hpsolved : wg.cells p &&& SOLVED ≠ 0 := by rw [hpw]; exact hp
          have hpt : p ≠ choose_target_cell wg := by
            intro hh
            rw [hh] at hpsolved
            exact hpsolved htgt
          have hguesscell : (guessGrid wg (choose_target_cell wg) k).cells p = wg.cells p := by
            show Function.update wg.cells (choose_target_cell wg) (set_value k) p = wg.cells p
            rw [Function.update_noteq hpt]
          have hguesssolved : (guessGrid wg (choose_target_cell wg) k).cells p &&& SOLVED ≠ 0 := by
            rw [hguesscell]
            exact hpsolved
          have := ih (guessGrid wg (choose_target_cell wg) k) og
            (guessGrid_WF wg _ k hWFw hk1 hk9)
            (guessGrid_Inv wg _ k hInvw' htgt) hrec p hguesssolved
          rw [this, hguesscell, hpw]

theorem trySolve_fuel_irrel :
    ∀ (fuel₁ fuel₂ : Nat) (g : Grid), WF g → Inv g →
      unsolvedCount g < fuel₁ → unsolvedCount g < fuel₂ →
      trySolve fuel₁ g = trySolve fuel₂ g := by
  intro fuel₁
  induction fuel₁ with
  | zero => intro fuel₂ g _ _ h1 _; omega
  | succ f₁ ih =>
    intro fuel₂ g hWF hInv h1 h2
    rcases fuel₂ with _ | f₂
    · omega
    rcases hrl : reduceLoop g with _ | wg
    · rw [trySolve_succ_none f₁ g hrl, trySolve_succ_none f₂ g hrl]
    · rw [trySolve_succ_some f₁ g wg hrl, trySolve_succ_some f₂ g wg hrl]
      by_cases hdone : wg.solved_counter = 9 * 9
      · rw [if_pos hdone, if_pos hdone]
      · rw [if_neg hdone, if_neg hdone]
        obtain ⟨hfixp, hle, hpres⟩ := reduceLoop_some_spec g wg hrl
        obtain ⟨hWFw, hInvw, _⟩ := hpres hWF
        have hInvw' := hInvw hInv
        have hfixall : ∀ p : Pos, reduce wg p.1 p.2 = (wg, 0) :=
          (reduce_grid_zero_fix wg (by rw [hfixp])).2
        have hcnt81 : wg.solved_counter ≤ 81 := by
          rw [Inv] at hInvw'
          have := solvedCells_add_unsolved wg
          omega
        have hlt : wg.solved_counter < 81 := by omega
        have htgt := fixpoint_target_unsolved wg hWFw hInvw' hfixall hlt
        have hwle : unsolvedCount wg ≤ unsolvedCount g := unsolvedCount_le_of_gridLe hle
        rw [tryGuess_eq, tryGuess_eq]
        refine guessFold_congr _ _ _ _ _ _ ?_ none
        intro k hk hbit
        rw [List.mem_range'] at hk
        obtain ⟨i, hi9, hik⟩ := hk
        have hk1 : 1 ≤ k := by omega
        have hk9 : k ≤ 9 := by omega
        rw [guessGrid_cells_eq]
        have hg1 := guessGrid_unsolved wg (choose_target_cell wg) k htgt
        exact ih f₂ (guessGrid wg (choose_target_cell wg) k)
          (guessGrid_WF wg _ k hWFw hk1 hk9)
          (guessGrid_Inv wg _ k hInvw' htgt)
          (by omega) (by omega)

theorem set_value_land_SOLVED (v : Nat) (hv1 : 1 ≤ v) (hv9 : v ≤ 9) :
    set_value v &&& SOLVED = 1 := by
  interval_cases v <;> decide

theorem dup_reduce_bad (g : Grid) (p q : Pos) (v : Nat)
    (hv1 : 1 ≤ v) (hv9 : v ≤ 9) (hne : q ≠ p)
    (hpeer : isPeer p.1 p.2 q = true)
    (hp : g.cells p = set_value v) (hq : g.cells q = set_value v) :
    (reduce g p.1 p.2).2 = -1 := by
  have hsol : g.cells (p.1, p.2) &&& SOLVED ≠ 0 := by
    show g.cells p &&& SOLVED ≠ 0
    rw [hp, set_value_land_SOLVED v hv1 hv9]
    exact one_ne_zero
  have hsrc : srcBits g p.1 p.2 = 1 <<< v := by
    show g.cells p &&& O_CELL = 1 <<< v
    rw [hp]
    exact set_value_land_OCELL v hv1 hv9
  have hbad : badPeer p.1 p.2 (srcBits g p.1 p.2) g q = true := by
    rw [hsrc]
    unfold badPeer touchedPeer peerNew
    rw [hq, clearPoss_set_value_self v hv1 hv9, mark_if_solved_one]
    have hq' : decide (q ≠ (p.1, p.2)) = true := decide_eq_true fun h => hne h
    rw [hq', hpeer]
    decide
  exact (reduce_fail_iff g p.1 p.2 hsol).2
    (List.any_eq_true.2 ⟨q, mem_posList q, hbad⟩)

theorem dup_fold_bad (p q : Pos) (v : Nat)
    (hv1 : 1 ≤ v) (hv9 : v ≤ 9) (hne : q ≠ p) (hpeer : isPeer p.1 p.2 q = true) :
    ∀ (L : List Pos) (g : Grid) (tot : Nat), p ∈ L → WF g →
      g.cells p = set_value v → g.cells q = set_value v →
      (L.foldl reduceGridStep (g, tot, false)).2.2 = true := by
  intro L
  induction L with
  | nil => intro g tot hpmem; exact absurd hpmem (List.not_mem_nil p)
  | cons r L ih =>
    intro g tot hpmem hWF hp hq
    rw [List.foldl_cons, reduceGridStep_eq g tot r]
    by_cases hr : (reduce g r.1 r.2).2 = -1
    · rw [if_pos hr]
      rw [foldl_reduceGridStep_failed L _ rfl]
    · rw [if_neg hr]
      obtain ⟨hWF', _, hsolv'⟩ := reduce_preserve g r.1 r.2 hWF hr
      have hsolp : g.cells p &&& SOLVED ≠ 0 := by
        rw [hp, set_value_land_SOLVED v hv1 hv9]
        exact one_ne_zero
      have hsolq : g.cells q &&& SOLVED ≠ 0 := by
        rw [hq, set_value_land_SOLVED v hv1 hv9]
        exact one_ne_zero
      have hp' : (reduce g r.1 r.2).1.cells p = set_value v := by
        rw [hsolv' p hsolp, hp]
      have hq' : (reduce g r.1 r.2).1.cells q = set_value v := by
        rw [hsolv' q hsolq, hq]
      have hpmem' : p ∈ L := by
        rcases List.mem_cons.1 hpmem with rfl | h
        · exact absurd (dup_reduce_bad g p q v hv1 hv9 hne hpeer hp hq) hr
        · exact h
      exact ih (reduce g r.1 r.2).1 _ hpmem' hWF' hp' hq'

theorem dup_reduce_grid_bad (g : Grid) (p q : Pos) (v : Nat)
    (hv1 : 1 ≤ v) (hv9 : v ≤ 9) (hne : q ≠ p) (hpeer : isPeer p.1 p.2 q = true)
    (hWF : WF g) (hp : g.cells p = set_value v) (hq : g.cells q = set_value v) :
    (reduce_grid g).2 = -1 := by
  unfold reduce_grid
  exact reduceFin_snd_bad _
    (dup_fold_bad p q v hv1 hv9 hne hpeer posList g 0 (mem_posList p) hWF hp hq)

theorem reduceLoop_of_bad (g : Grid) (h : (reduce_grid g).2 = -1) :
    reduceLoop g = none := by
  unfold reduceLoop
  rw [show gridWeight g + 1 = gridWeight g + 1 from rfl, reduceLoopF_succ, if_pos h]
  rfl

theorem dup_trySolve_none (g : Grid) (p q : Pos) (v : Nat)
    (hv1 : 1 ≤ v) (hv9 : v ≤ 9) (hne : q ≠ p) (hpeer : isPeer p.1 p.2 q = true)
    (hWF : WF g) (hp : g.cells p = set_value v) (hq : g.cells q = set_value v) :
    ∀ fuel, trySolve fuel g = none := by
  intro fuel
  rcases fuel with _ | f
  · rfl
  · exact trySolve_succ_none f g
      (reduceLoop_of_bad g (dup_reduce_grid_bad g p q v hv1 hv9 hne hpeer hWF hp hq))

/-! ### Row, column and region units, and validity of a solved fixpoint grid -/

/-- The nine cells of row `r`, in scan order. -/
def rowUnit (r : Fin 9) : List Pos := (List.finRange 9).map fun j => (r, j)

/-- The nine cells of column `c`, in scan order. -/
def colUnit (c : Fin 9) : List Pos := (List.finRange 9).map fun i => (i, c)

/-- The nine cells of the 3×3 region with region row `a` and region column `b`. -/
def regionUnit (a b : Fin 3) : List Pos :=
  posList.filter fun p => p.1.val / 3 == a.val && p.2.val / 3 == b.val

theorem all_solved_of_counter (g : Grid) (hInv : Inv g) (hc : g.solved_counter = 81) :
    ∀ p : Pos, g.cells p &&& SOLVED ≠ 0 := by
  intro p
  have h81 : posList.countP (fun p => g.cells p &&& SOLVED != 0) = posList.length := by
    have hs : solvedCells g = 81 := by rw [Inv] at hInv; omega
    rw [solvedCells] at hs
    rw [hs]
    decide
  have := List.countP_eq_length.1 h81 p (mem_posList p)
  simpa using this

theorem solved_cell_value (g : Grid) (hWF : WF g) (p : Pos)
    (hs : g.cells p &&& SOLVED ≠ 0) :
    ∃ v, 1 ≤ v ∧ v ≤ 9 ∧ g.cells p = set_value v ∧ get_value (g.cells p) = v := by
  obtain ⟨v, h1, h9, hcell⟩ :=
    properCell_solved_eq (hWF p) ((land_solved_ne_zero_iff _).1 hs)
  refine ⟨v, h1, h9, hcell, ?_⟩
  rw [hcell]
  exact get_value_set_value v h1 h9

theorem fixpoint_peer_values_ne (g : Grid) (hWF : WF g)
    (hfix : ∀ p : Pos, reduce g p.1 p.2 = (g, 0)) (p q : Pos) (hne : q ≠ p)
    (hpeer : isPeer p.1 p.2 q = true) (v : Nat) (hv1 : 1 ≤ v) (hv9 : v ≤ 9)
    (hp : g.cells p = set_value v) : g.cells q ≠ set_value v := by
  intro hq
  have hbad := dup_reduce_bad g p q v hv1 hv9 hne hpeer hp hq
  rw [hfix p] at hbad
  cases hbad

theorem count_range_one_nine (v : Nat) (h1 : 1 ≤ v) (h9 : v ≤ 9) :
    (List.range' 1 9).count v = 1 := by
  interval_cases v <;> decide

theorem unit_values_perm (g : Grid) (hWF : WF g)
    (hfix : ∀ p : Pos, reduce g p.1 p.2 = (g, 0))
    (hall : ∀ p : Pos, g.cells p &&& SOLVED ≠ 0)
    (U : List Pos) (hnd : U.Nodup)
    (hpeer : ∀ p ∈ U, ∀ q ∈ U, q ≠ p → isPeer p.1 p.2 q = true)
    (hlen : U.length = 9) :
    (U.map fun p => get_value (g.cells p)).Perm (List.range' 1 9) := by
  have hinj : ∀ x ∈ U, ∀ y ∈ U,
      get_value (g.cells x) = get_value (g.cells y) → x = y := by
    intro x hx y hy hval
    by_contra hxy
    obtain ⟨vx, hvx1, hvx9, hcx, hgx⟩ := solved_cell_value g hWF x (hall x)
    obtain ⟨vy, hvy1, hvy9, hcy, hgy⟩ := solved_cell_value g hWF y (hall y)
    have hv : vx = vy := by rw [← hgx, ← hgy, hval]
    have hyx : y ≠ x := fun h => hxy h.symm
    refine fixpoint_peer_values_ne g hWF hfix x y hyx
      (hpeer x hx y hy hyx) vx hvx1 hvx9 hcx ?_
    rw [hcy, hv]
  have hndm : (U.map fun p => get_value (g.cells p)).Nodup :=
    List.Nodup.map_on hinj hnd
  have hsub : (U.map fun p => get_value (g.cells p)) ⊆ List.range' 1 9 := by
    intro v hv
    obtain ⟨p, hp, hpv⟩ := List.mem_map.1 hv
    obtain ⟨w, hw1, hw9, -, hgw⟩ := solved_cell_value g hWF p (hall p)
    rw [← hpv, hgw]
    exact mem_range_one_nine hw1 hw9
  have hsp := List.Nodup.subperm hndm hsub
  refine List.Subperm.perm_of_length_le hsp ?_
  rw [List.length_map, hlen]
  decide

theorem unit_count_one (g : Grid) (hWF : WF g)
    (hfix : ∀ p : Pos, reduce g p.1 p.2 = (g, 0))
    (hall : ∀ p : Pos, g.cells p &&& SOLVED ≠ 0)
    (U : List Pos) (hnd : U.Nodup)
    (hpeer : ∀ p ∈ U, ∀ q ∈ U, q ≠ p → isPeer p.1 p.2 q = true)
    (hlen : U.length = 9) (v : Nat) (h1 : 1 ≤ v) (h9 : v ≤ 9) :
    (U.map fun p => get_value (g.cells p)).count v = 1 := by
  rw [List.Perm.count_eq (unit_values_perm g hWF hfix hall U hnd hpeer hlen)]
  exact count_range_one_nine v h1 h9

theorem rowUnit_nodup (r : Fin 9) : (rowUnit r).Nodup := by
  fin_cases r <;> decide

theorem rowUnit_peer (r : Fin 9) :
    ∀ p ∈ rowUnit r, ∀ q ∈ rowUnit r, q ≠ p → isPeer p.1 p.2 q = true := by
  fin_cases r <;> decide

theorem rowUnit_length (r : Fin 9) : (rowUnit r).length = 9 := by
  fin_cases r <;> decide

theorem colUnit_nodup (c : Fin 9) : (colUnit c).Nodup := by
  fin_cases c <;> decide

theorem colUnit_peer (c : Fin 9) :
    ∀ p ∈ colUnit c, ∀ q ∈ colUnit c, q ≠ p → isPeer p.1 p.2 q = true := by
  fin_cases c <;> decide

theorem colUnit_length (c : Fin 9) : (colUnit c).length = 9 := by
  fin_cases c <;> decide

theorem regionUnit_nodup (a b : Fin 3) : (regionUnit a b).Nodup := by
  fin_cases a <;> fin_cases b <;> decide

theorem regionUnit_peer (a b : Fin 3) :
    ∀ p ∈ regionUnit a b, ∀ q ∈ regionUnit a b, q ≠ p → isPeer p.1 p.2 q = true := by
  fin_cases a <;> fin_cases b <;> decide

theorem regionUnit_length (a b : Fin 3) : (regionUnit a b).length = 9 := by
  fin_cases a <;> fin_cases b <;> decide

/-! ### Preservation of well-formedness and the counter invariant by `read_grid` -/

theorem readRow_nil (g : Grid) (i : Fin 9) (j : Nat) :
    readRow g i j [] = if j < 9 then some (g, [], false) else none := rfl

theorem readRow_cons (g : Grid) (i : Fin 9) (j : Nat) (c : Nat) (rest : List Nat) :
    readRow g i j (c :: rest) =
      if c = 0 then some (g, rest, true)
      else if c = 10 then some (g, rest, true)
      else if c = 32 || c = 45 then readRow g i (j + 1) rest
      else if h : 9 ≤ j then readRow g i (j + 1) rest
      else if 49 ≤ c ∧ c ≤ 57 then
        readRow
          { cells := Function.update g.cells (i, ⟨j, by omega⟩) (set_value (c - 48)),
            solved_counter := g.solved_counter + 1 }
          i (j + 1) rest
      else some (g, rest, false) := rfl

theorem readRows_nil (g : Grid) (input : List Nat) :
    readRows g input [] = some (g, true) := rfl

theorem readRows_cons (g : Grid) (input : List Nat) (i : Fin 9) (is : List (Fin 9)) :
    readRows g input (i :: is) =
      match readRow g i 0 input with
      | none => none
      | some (g', rest, true) => readRows g' rest is
      | some (g', _, false) => some (g', false) := rfl

theorem readRow_pres :
    ∀ (input : List Nat) (j : Nat) (g : Grid) (i : Fin 9)
      (g' : Grid) (rest : List Nat) (ok : Bool),
      WF g → Inv g →
      (∀ p : Pos, p.1 = i → j ≤ p.2.val → g.cells p &&& SOLVED = 0) →
      readRow g i j input = some (g', rest, ok) →
      WF g' ∧ Inv g' ∧ (∀ p : Pos, p.1 ≠ i → g'.cells p = g.cells p) := by
  intro input
  induction input with
  | nil =>
    intro j g i g' rest ok hWF hInv hrow h
    rw [readRow_nil] at h
    by_cases hj : j < 9
    · rw [if_pos hj] at h
      simp only [Option.some.injEq, Prod.mk.injEq] at h
      obtain ⟨rfl, rfl, rfl⟩ := h
      exact ⟨hWF, hInv, fun p _ => rfl⟩
    · rw [if_neg hj] at h
      cases h
  | cons c rest0 ih =>
    intro j g i g' rest ok hWF hInv hrow h
    rw [readRow_cons] at h
    by_cases hc0 : c = 0
    · rw [if_pos hc0] at h
      simp only [Option.some.injEq, Prod.mk.injEq] at h
      obtain ⟨rfl, rfl, rfl⟩ := h
      exact ⟨hWF, hInv, fun p _ => rfl⟩
    · rw [if_neg hc0] at h
      by_cases hc10 : c = 10
      · rw [if_pos hc10] at h
        simp only [Option.some.injEq, Prod.mk.injEq] at h
        obtain ⟨rfl, rfl, rfl⟩ := h
        exact ⟨hWF, hInv, fun p _ => rfl⟩
      · rw [if_neg hc10] at h
        have hspb : ((decide (c = 32) || decide (c = 45)) = true) ↔ (c = 32 ∨ c = 45) := by
          simp
        by_cases hsp : c = 32 ∨ c = 45
        · rw [if_pos (hspb.2 hsp)] at h
          refine ih (j + 1) g i g' rest ok hWF hInv ?_ h
          intro p hp1 hp2
          exact hrow p hp1 (by omega)
        · rw [if_neg (fun hh => hsp (hspb.1 hh))] at h
          by_cases hj9 : 9 ≤ j
          · rw [dif_pos hj9] at h
            refine ih (j + 1) g i g' rest ok hWF hInv ?_ h
            intro p hp1 hp2
            exact hrow p hp1 (by omega)
          · rw [dif_neg hj9] at h
            by_cases hdig : 49 ≤ c ∧ c ≤ 57
            · rw [if_pos hdig] at h
              have hlt9 : j < 9 := by omega
              have hcell : g.cells (i, (⟨j, hlt9⟩ : Fin 9)) &&& SOLVED = 0 :=
                hrow (i, ⟨j, hlt9⟩) rfl (le_refl j)
              have h' : readRow (guessGrid g (i, ⟨j, hlt9⟩) (c - 48)) i (j + 1) rest0 =
                  some (g', rest, ok) := h
              have hWFn := guessGrid_WF g (i, ⟨j, hlt9⟩) (c - 48) hWF
                (by omega) (by omega)
              have hInvn := guessGrid_Inv g (i, ⟨j, hlt9⟩) (c - 48) hInv hcell
              have hrow' : ∀ p : Pos, p.1 = i → j + 1 ≤ p.2.val →
                  (guessGrid g (i, ⟨j, hlt9⟩) (c - 48)).cells p &&& SOLVED = 0 := by
                intro p hp1 hp2
                have hne : p ≠ (i, ⟨j, hlt9⟩) := by
                  intro hpe
                  rw [hpe] at hp2
                  simp at hp2
                show Function.update g.cells (i, ⟨j, hlt9⟩) (set_value (c - 48)) p &&&
                    SOLVED = 0
                rw [Function.update_noteq hne]
                exact hrow p hp1 (by omega)
              obtain ⟨hWF', hInv', hoff⟩ := ih (j + 1)
                (guessGrid g (i, ⟨j, hlt9⟩) (c - 48)) i g' rest ok hWFn hInvn hrow' h'
              refine ⟨hWF', hInv', fun p hp => ?_⟩
              rw [hoff p hp]
              show Function.update g.cells (i, ⟨j, hlt9⟩) (set_value (c - 48)) p = g.cells p
              refine Function.update_noteq (fun hpe => hp ?_) _ _
              rw [hpe]
            · rw [if_neg hdig] at h
              simp only [Option.some.injEq, Prod.mk.injEq] at h
              obtain ⟨rfl, rfl, rfl⟩ := h
              exact ⟨hWF, hInv, fun p _ => rfl⟩

theorem readRows_pres :
    ∀ (is : List (Fin 9)) (input : List Nat) (g : Grid),
      WF g → Inv g → is.Nodup →
      (∀ p : Pos, p.1 ∈ is → g.cells p &&& SOLVED = 0) →
      ∀ (g' : Grid) (b : Bool), readRows g input is = some (g', b) →
        WF g' ∧ Inv g' := by
  intro is
  induction is with
  | nil =>
    intro input g hWF hInv _ _ g' b h
    rw [readRows_nil] at h
    simp only [Option.some.injEq, Prod.mk.injEq] at h
    obtain ⟨rfl, rfl⟩ := h
    exact ⟨hWF, hInv⟩
  | cons i is ih =>
    intro input g hWF hInv hnd hrows g' b h
    rw [readRows_cons] at h
    rcases hrr : readRow g i 0 input with _ | ⟨g1, rest1, ok1⟩
    · rw [hrr] at h
      cases h
    · rw [hrr] at h
      obtain ⟨hWF1, hInv1, hoff1⟩ := readRow_pres input 0 g i g1 rest1 ok1 hWF hInv
        (fun p hp1 _ => hrows p (by rw [hp1]; exact List.mem_cons_self i is)) hrr
      rcases ok1 with _ | _
      · have h' : some (g1, false) = some (g', b) := h
        simp only [Option.some.injEq, Prod.mk.injEq] at h'
        obtain ⟨rfl, rfl⟩ := h'
        exact ⟨hWF1, hInv1⟩
      · have h' : readRows g1 rest1 is = some (g', b) := h
        refine ih rest1 g1 hWF1 hInv1 (List.nodup_cons.1 hnd).2 ?_ g' b h'
        intro p hp
        have hpne : p.1 ≠ i := by
          intro hpe
          exact (List.nodup_cons.1 hnd).1 (hpe ▸ hp)
        rw [hoff1 p hpne]
        exact hrows p (List.mem_cons_of_mem i hp)

theorem read_grid_pres (input : List Nat) (g' : Grid) (b : Bool)
    (h : read_grid grid_zero input = some (g', b)) : WF g' ∧ Inv g' :=
  readRows_pres (List.finRange 9) input grid_zero (by decide) (by decide) (by decide)
    (fun p _ => show O_CELL &&& SOLVED = 0 by decide) g' b h

/-! ### Behaviour of `read_grid` on malformed cell characters -/

/-- The characters `read_grid` accepts at a cell position: space, hyphen, or a
digit `1`–`9`. -/
def allowedByte (c : Nat) : Bool := (c == 32) || (c == 45) || (49 ≤ c && c ≤ 57)

/-- Nine text rows joined with the newline terminator of each row. -/
def joinRows (rows : List (List Nat)) : List Nat :=
  rows.flatMap fun r => r ++ [10]

theorem readRow_good (i : Fin 9) :
    ∀ (row : List Nat) (j : Nat) (g : Grid) (rest : List Nat),
      (∀ c ∈ row, c ≠ 0 ∧ c ≠ 10) →
      (∀ (pre : List Nat) (c : Nat) (suf : List Nat),
        row = pre ++ c :: suf → j + pre.length < 9 → allowedByte c = true) →
      ∃ g', readRow g i j (row ++ 10 :: rest) = some (g', rest, true) := by
  intro row
  induction row with
  | nil =>
    intro j g rest _ _
    refine ⟨g, ?_⟩
    rw [List.nil_append, readRow_cons]
    rw [if_neg (by omega), if_pos rfl]
  | cons c row ih =>
    intro j g rest hall hgood
    obtain ⟨hc0, hc10⟩ := hall c (List.mem_cons_self c row)
    rw [List.cons_append, readRow_cons, if_neg hc0, if_neg hc10]
    have hrest : ∀ b ∈ row, b ≠ 0 ∧ b ≠ 10 :=
      fun b hb => hall b (List.mem_cons_of_mem c hb)
    have hgood' : ∀ (pre : List Nat) (b : Nat) (suf : List Nat),
        row = pre ++ b :: suf → j + 1 + pre.length < 9 → allowedByte b = true := by
      intro pre b suf hdec hlt
      refine hgood (c :: pre) b suf ?_ ?_
      · rw [List.cons_append, hdec]
      · simp only [List.length_cons]
        omega
    by_cases hsp : c = 32 ∨ c = 45
    · rw [if_pos (by simp [hsp])]
      exact ih (j + 1) g rest hrest hgood'
    · by_cases hj9 : 9 ≤ j
      · rw [if_neg (by simpa using hsp), dif_pos hj9]
        exact ih (j + 1) g rest hrest hgood'
      · have hcall : allowedByte c = true :=
          hgood [] c row rfl (by simp only [List.length_nil]; omega)
        have hdig : 49 ≤ c ∧ c ≤ 57 := by
          rw [allowedByte] at hcall
          rcases Bool.or_eq_true_iff.1 hcall with h1 | h2
          · exfalso
            rcases Bool.or_eq_true_iff.1 h1 with h | h
            · exact hsp (Or.inl (by simpa using h))
            · exact hsp (Or.inr (by simpa using h))
          · rw [Bool.and_eq_true] at h2
            exact ⟨by simpa using h2.1, by simpa using h2.2⟩
        rw [if_neg (by simpa using hsp), dif_neg hj9, if_pos hdig]
        exact ih (j + 1) _ rest hrest hgood'

theorem readRow_bad (i : Fin 9) :
    ∀ (row : List Nat) (j : Nat) (g : Grid) (rest : List Nat),
      (∀ c ∈ row, c ≠ 0 ∧ c ≠ 10) →
      (∃ (pre : List Nat) (c : Nat) (suf : List Nat),
        row = pre ++ c :: suf ∧ j + pre.length < 9 ∧ allowedByte c = false) →
      ∃ g' rest', readRow g i j (row ++ 10 :: rest) = some (g', rest', false) := by
  intro row
  induction row with
  | nil =>
    intro j g rest _ hbad
    obtain ⟨pre, c, suf, hdec, -, -⟩ := hbad
    rcases pre with _ | ⟨d, pre⟩ <;> simp at hdec
  | cons d row ih =>
    intro j g rest hall hbad
    obtain ⟨hd0, hd10⟩ := hall d (List.mem_cons_self d row)
    rw [List.cons_append, readRow_cons, if_neg hd0, if_neg hd10]
    have hrest : ∀ b ∈ row, b ≠ 0 ∧ b ≠ 10 :=
      fun b hb => hall b (List.mem_cons_of_mem d hb)
    obtain ⟨pre, c, suf, hdec, hlt, hcf⟩ := hbad
    rcases pre with _ | ⟨d', pre⟩
    · rw [List.nil_append] at hdec
      injection hdec with h1 h2
      subst h1
      have hj : ¬9 ≤ j := by
        simp only [List.length_nil] at hlt
        omega
      have hsp : ¬(d = 32 ∨ d = 45) := by
        rintro (h | h) <;> rw [h] at hcf <;> exact absurd hcf (by decide)
      have hdig : ¬(49 ≤ d ∧ d ≤ 57) := by
        rintro ⟨h1, h2⟩
        rw [allowedByte] at hcf
        have : (49 ≤ d && d ≤ 57) = true := by
          rw [Bool.and_eq_true]
          exact ⟨by simpa using h1, by simpa using h2⟩
        rw [this] at hcf
        simp at hcf
      rw [if_neg (by simpa using hsp), dif_neg hj, if_neg hdig]
      exact ⟨g, row ++ 10 :: rest, rfl⟩
    · rw [List.cons_append] at hdec
      injection hdec with h1 h2
      have hlt' : j + 1 + pre.length < 9 := by
        simp only [List.length_cons] at hlt
        omega
      have hbad' : ∃ (pre' : List Nat) (b : Nat) (suf' : List Nat),
          row = pre' ++ b :: suf' ∧ j + 1 + pre'.length < 9 ∧ allowedByte b = false :=
        ⟨pre, c, suf, h2, hlt', hcf⟩
      have hj : ¬9 ≤ j := by omega
      by_cases hsp : d = 32 ∨ d = 45
      · rw [if_pos (by simp [hsp])]
        exact ih (j + 1) g rest hrest hbad'
      · by_cases hdig : 49 ≤ d ∧ d ≤ 57
        · rw [if_neg (by simpa using hsp), dif_neg hj, if_pos hdig]
          exact ih (j + 1) _ rest hrest hbad'
        · rw [if_neg (by simpa using hsp), dif_neg hj, if_neg hdig]
          exact ⟨g, row ++ 10 :: rest, rfl⟩

theorem readRows_bad :
    ∀ (rows : List (List Nat)) (is : List (Fin 9)) (g : Grid),
      rows.length = is.length →
      (∀ r ∈ rows, ∀ c ∈ r, c ≠ 0 ∧ c ≠ 10) →
      (∃ r ∈ rows, ∃ (pre : List Nat) (c : Nat) (suf : List Nat),
        r = pre ++ c :: suf ∧ pre.length < 9 ∧ allowedByte c = false) →
      ∃ g', readRows g (joinRows rows) is = some (g', false) := by
  intro rows
  induction rows with
  | nil =>
    intro is g _ _ hbad
    obtain ⟨r, hr, -⟩ := hbad
    exact absurd hr (List.not_mem_nil r)
  | cons r rows ih =>
    intro is g hlen hok hbad
    rcases is with _ | ⟨i, is⟩
    · simp at hlen
    have hjoin : joinRows (r :: rows) = r ++ 10 :: joinRows rows := by
      rw [joinRows, List.flatMap_cons, List.append_assoc]
      rfl
    rw [hjoin, readRows_cons]
    have hrb := hok r (List.mem_cons_self r rows)
    by_cases hrbad : ∃ (pre : List Nat) (c : Nat) (suf : List Nat),
        r = pre ++ c :: suf ∧ pre.length < 9 ∧ allowedByte c = false
    · obtain ⟨pre, c, suf, hdec, hplt, hcf⟩ := hrbad
      obtain ⟨g', rest', hrr⟩ := readRow_bad i r 0 g (joinRows rows) hrb
        ⟨pre, c, suf, hdec, by omega, hcf⟩
      rw [hrr]
      exact ⟨g', rfl⟩
    · have hgood : ∀ (pre : List Nat) (c : Nat) (suf : List Nat),
          r = pre ++ c :: suf → 0 + pre.length < 9 → allowedByte c = true := by
        intro pre c suf hdec hplt
        rcases hc' : allowedByte c with _ | _
        · exact absurd ⟨pre, c, suf, hdec, by omega, hc'⟩ hrbad
        · rfl
      obtain ⟨g1, hrr⟩ := readRow_good i r 0 g (joinRows rows) hrb hgood
      rw [hrr]
      have hbad' : ∃ r' ∈ rows, ∃ (pre : List Nat) (c : Nat) (suf : List Nat),
          r' = pre ++ c :: suf ∧ pre.length < 9 ∧ allowedByte c = false := by
        rcases hbad with ⟨r', hr', hdetail⟩
        rcases List.mem_cons.1 hr' with rfl | hrm
        · exact absurd hdetail hrbad
        · exact ⟨r', hrm, hdetail⟩
      exact ih is g1 (by simpa using hlen)
        (fun r' hr' => hok r' (List.mem_cons_of_mem r hr')) hbad'


/-! ### Concrete grids used to instantiate the theorems -/

instance : DecidableEq Grid :=
  fun g g' =>
    decidable_of_iff (g.cells = g'.cells ∧ g.solved_counter = g'.solved_counter)
      ⟨fun h => by cases g; cases g'; cases h.1; cases h.2; rfl,
       fun h => by cases h; exact ⟨rfl, rfl⟩⟩

/-- A fully solved valid grid. -/
def gFull : Grid :=
  { cells := fun p => set_value ((3 * (p.1.val % 3) + p.1.val / 3 + p.2.val) % 9 + 1),
    solved_counter := 81 }

/-- A grid with two clues of value 5 in row 0, columns 0 and 4. -/
def gDup : Grid :=
  { cells := Function.update
      (Function.update (fun _ => O_CELL) ((0 : Fin 9), (0 : Fin 9)) (set_value 5))
      ((0 : Fin 9), (4 : Fin 9)) (set_value 5),
    solved_counter := 2 }

/-- A grid with a single clue at (0,0) and every other cell fully open. -/
def gC6 : Grid :=
  { cells := Function.update (fun _ => O_CELL) ((0 : Fin 9), (0 : Fin 9)) (set_value 1),
    solved_counter := 1 }

/-- An all-unsolved grid whose cell (0,1) has only the candidates 2–9. -/
def gW6 : Grid :=
  { cells := Function.update (fun _ => O_CELL) ((0 : Fin 9), (1 : Fin 9)) 1020,
    solved_counter := 0 }

theorem foldl_reduceGridStep_fix (g : Grid)
    (hfix : ∀ p : Pos, reduce g p.1 p.2 = (g, 0)) :
    ∀ (L : List Pos) (tot : Nat),
      L.foldl reduceGridStep (g, tot, false) = (g, tot, false) := by
  intro L
  induction L with
  | nil => intro tot; rfl
  | cons q L ih =>
    intro tot
    rw [List.foldl_cons, reduceGridStep_eq g tot q, hfix q]
    rw [if_neg (by simp)]
    show L.foldl reduceGridStep (g, tot + 0, false) = (g, tot, false)
    rw [Nat.add_zero]
    exact ih tot

theorem reduce_grid_of_fix (g : Grid)
    (hfix : ∀ p : Pos, reduce g p.1 p.2 = (g, 0)) : reduce_grid g = (g, 0) := by
  rw [reduce_grid, foldl_reduceGridStep_fix g hfix posList 0]
  rfl

theorem gFull_fix : ∀ p : Pos, reduce gFull p.1 p.2 = (gFull, 0) := by decide

theorem trySolve_gFull : trySolve 1 gFull = some gFull := by
  have hrg : reduce_grid gFull = (gFull, 0) := reduce_grid_of_fix gFull gFull_fix
  have hloop : reduceLoop gFull = some gFull := by
    rw [reduceLoop, reduceLoopF_succ, hrg]
    rfl
  show trySolve (0 + 1) gFull = some gFull
  rw [trySolve_succ_some 0 gFull gFull hloop, if_pos (by decide)]

/-! ### The claims -/

/-- C1: whenever `try` returns success, every cell of the output grid it
writes is solved, and each row, each column, and each 3×3 region of that
output grid contains each of the digits 1–9 exactly once. -/
theorem C1_solved_output_valid (fuel : Nat) (g og : Grid)
    (hWF : WF g) (hInv : Inv g) (h : trySolve fuel g = some og) :
    (∀ p : Pos, og.cells p &&& SOLVED ≠ 0) ∧
    (∀ v, 1 ≤ v → v ≤ 9 →
      (∀ r : Fin 9, ((rowUnit r).map fun p => get_value (og.cells p)).count v = 1) ∧
      (∀ c : Fin 9, ((colUnit c).map fun p => get_value (og.cells p)).count v = 1) ∧
      (∀ a b : Fin 3,
        ((regionUnit a b).map fun p => get_value (og.cells p)).count v = 1)) := by
  obtain ⟨hWFo, hInvo, hcnt, hfix⟩ := trySolve_sound fuel g og hWF hInv h
  have hall := all_solved_of_counter og hInvo hcnt
  refine ⟨hall, fun v h1 h9 => ⟨fun r => ?_, fun c => ?_, fun a b => ?_⟩⟩
  · exact unit_count_one og hWFo hfix hall (rowUnit r) (rowUnit_nodup r)
      (rowUnit_peer r) (rowUnit_length r) v h1 h9
  · exact unit_count_one og hWFo hfix hall (colUnit c) (colUnit_nodup c)
      (colUnit_peer c) (colUnit_length c) v h1 h9
  · exact unit_count_one og hWFo hfix hall (regionUnit a b) (regionUnit_nodup a b)
      (regionUnit_peer a b) (regionUnit_length a b) v h1 h9

theorem C1_solved_output_valid_witness :
    trySolve 1 gFull = some gFull ∧ (∀ p : Pos, gFull.cells p &&& SOLVED ≠ 0) :=
  ⟨trySolve_gFull,
   (C1_solved_output_valid 1 gFull gFull (by decide) (by decide) trySolve_gFull).1⟩

/-- C2: an initial grid with two solved cells of the same value that share a
row, column or region makes `try` fail for every recursion depth; in this
embedding `trySolve … = none` is exactly the C path `return 0` on which the
output grid is never written. -/
theorem C2_duplicate_clue_fails (g : Grid) (p q : Pos) (v : Nat)
    (hWF : WF g) (hv1 : 1 ≤ v) (hv9 : v ≤ 9) (hne : q ≠ p)
    (hpeer : isPeer p.1 p.2 q = true)
    (hp : g.cells p = set_value v) (hq : g.cells q = set_value v) :
    ∀ fuel, trySolve fuel g = none :=
  dup_trySolve_none g p q v hv1 hv9 hne hpeer hWF hp hq

theorem C2_duplicate_clue_fails_witness :
    WF gDup ∧ trySolve 82 gDup = none :=
  ⟨by decide,
   C2_duplicate_clue_fails gDup ((0 : Fin 9), (0 : Fin 9)) ((0 : Fin 9), (4 : Fin 9)) 5
     (by decide) (by decide) (by decide) (by decide) (by decide) (by decide) (by decide) 82⟩

/-- C3: on every input grid on which `try` returns success, every solved cell
of the input grid keeps its exact value at the same position in the output
grid. -/
theorem C3_clues_preserved (fuel : Nat) (g og : Grid) (hWF : WF g) (hInv : Inv g)
    (h : trySolve fuel g = some og) :
    ∀ p : Pos, g.cells p &&& SOLVED ≠ 0 → og.cells p = g.cells p :=
  trySolve_clues fuel g og hWF hInv h

theorem C3_clues_preserved_witness :
    gFull.cells ((0 : Fin 9), (0 : Fin 9)) &&& SOLVED ≠ 0 ∧
    gFull.cells ((0 : Fin 9), (0 : Fin 9)) = gFull.cells ((0 : Fin 9), (0 : Fin 9)) :=
  ⟨by decide,
   C3_clues_preserved 1 gFull gFull (by decide) (by decide) trySolve_gFull
     ((0 : Fin 9), (0 : Fin 9)) (by decide)⟩

/-- C4: `reduce` is a no-op returning 0 on an unsolved source cell; on a
solved source it returns −1 exactly when some peer is wiped to `0` or to the
bare solved flag `1` by the scan, and otherwise returns the number of peers
it modified. -/
theorem C4_reduce_contract (g : Grid) (row col : Fin 9) :
    (g.cells (row, col) &&& SOLVED = 0 → reduce g row col = (g, 0)) ∧
    (g.cells (row, col) &&& SOLVED ≠ 0 →
      ((reduce g row col).2 = -1 ↔ hasBadPeer g row col = true) ∧
      (hasBadPeer g row col = false →
        (reduce g row col).2 = (modCount g row col : Int))) :=
  ⟨fun h => reduce_unsolved g row col h,
   fun h => ⟨reduce_fail_iff g row col h,
             fun hnb => (reduce_spec_ok g row col h hnb).1⟩⟩

theorem C4_reduce_contract_witness :
    grid_zero.cells ((0 : Fin 9), (0 : Fin 9)) &&& SOLVED = 0 ∧
    reduce grid_zero (0 : Fin 9) (0 : Fin 9) = (grid_zero, 0) ∧
    gDup.cells ((0 : Fin 9), (0 : Fin 9)) &&& SOLVED ≠ 0 ∧
    hasBadPeer gDup (0 : Fin 9) (0 : Fin 9) = true ∧
    (reduce gDup (0 : Fin 9) (0 : Fin 9)).2 = -1 :=
  ⟨by decide, (C4_reduce_contract grid_zero 0 0).1 (by decide), by decide, by decide,
   ((C4_reduce_contract gDup 0 0).2 (by decide)).1.mpr (by decide)⟩

/-- C5: the recursion of `try` is bounded by the number of unsolved cells of
the input grid (which is at most 81): any fuel beyond `unsolvedCount g`
recursion levels gives the same result, so the C recursion, whose depth the
fuel models, terminates within that bound. -/
theorem C5_recursion_depth_bounded (fuel : Nat) (g : Grid) (hWF : WF g)
    (hInv : Inv g) (hfuel : unsolvedCount g < fuel) :
    trySolve fuel g = trySolve (unsolvedCount g + 1) g ∧ unsolvedCount g ≤ 81 :=
  ⟨trySolve_fuel_irrel fuel (unsolvedCount g + 1) g hWF hInv hfuel
     (Nat.lt_succ_self _),
   by have := solvedCells_add_unsolved g; omega⟩

theorem C5_recursion_depth_bounded_witness :
    WF grid_zero ∧ Inv grid_zero ∧ unsolvedCount grid_zero < 82 ∧
    (trySolve 82 grid_zero = trySolve (unsolvedCount grid_zero + 1) grid_zero ∧
      unsolvedCount grid_zero ≤ 81) :=
  ⟨by decide, by decide, by decide,
   C5_recursion_depth_bounded 82 grid_zero (by decide) (by decide) (by decide)⟩

/-- C6 counterexample: in the grid `gC6` there is an unsolved cell, yet
`choose_target_cell` returns (0,0), which is solved — because every unsolved
cell has all 9 candidates and the scan only takes cells with strictly fewer
than `t = 9` candidates, the default target (0,0) is returned even though it
is solved.  This refutes the claim for grids whose unsolved cells all have 9
candidates. -/
theorem C6_choose_target_cex :
    (∃ p : Pos, gC6.cells p &&& SOLVED = 0) ∧
    choose_target_cell gC6 = ((0 : Fin 9), (0 : Fin 9)) ∧
    gC6.cells ((0 : Fin 9), (0 : Fin 9)) &&& SOLVED ≠ 0 :=
  ⟨⟨((0 : Fin 9), (1 : Fin 9)), by decide⟩, by decide, by decide⟩

/-- C6 (amended): if some unsolved cell has strictly fewer than 9 candidates,
`choose_target_cell` returns an unsolved cell of minimal candidate count, and
among the unsolved cells attaining the minimum it returns the first in
row-major scan order (every unsolved cell strictly earlier has strictly more
candidates). -/
theorem C6_choose_target_min (g : Grid)
    (h : ∃ p : Pos, g.cells p &&& SOLVED = 0 ∧ possCount (g.cells p) < 9) :
    g.cells (choose_target_cell g) &&& SOLVED = 0 ∧
    (∀ q : Pos, g.cells q &&& SOLVED = 0 →
      possCount (g.cells (choose_target_cell g)) ≤ possCount (g.cells q)) ∧
    (∀ q : Pos, rmLt q (choose_target_cell g) → g.cells q &&& SOLVED = 0 →
      possCount (g.cells (choose_target_cell g)) < possCount (g.cells q)) :=
  choose_target_min g h

theorem C6_choose_target_min_witness :
    (gW6.cells ((0 : Fin 9), (1 : Fin 9)) &&& SOLVED = 0 ∧
      possCount (gW6.cells ((0 : Fin 9), (1 : Fin 9))) < 9) ∧
    gW6.cells (choose_target_cell gW6) &&& SOLVED = 0 :=
  ⟨⟨by decide, by decide⟩,
   (C6_choose_target_min gW6 ⟨((0 : Fin 9), (1 : Fin 9)), by decide, by decide⟩).1⟩

/-- C7: one application of `reduce`, and one pass of `reduce_grid`, can only
clear candidate bits (bits 1–9), never set them, and never decrease
`solved_counter`. -/
theorem C7_monotonicity (g : Grid) (row col : Fin 9) :
    ((∀ q : Pos, ∀ v, v ≠ 0 →
        ((reduce g row col).1.cells q).testBit v = true →
        (g.cells q).testBit v = true) ∧
      g.solved_counter ≤ (reduce g row col).1.solved_counter) ∧
    ((∀ q : Pos, ∀ v, v ≠ 0 →
        ((reduce_grid g).1.cells q).testBit v = true →
        (g.cells q).testBit v = true) ∧
      g.solved_counter ≤ (reduce_grid g).1.solved_counter) :=
  ⟨⟨(reduce_gridLe g row col).1, (reduce_gridLe g row col).2.2⟩,
   ⟨(reduce_grid_gridLe g).1, (reduce_grid_gridLe g).2.2⟩⟩

theorem C7_monotonicity_witness :
    ((reduce gDup (0 : Fin 9) (0 : Fin 9)).1.cells ((0 : Fin 9), (1 : Fin 9))).testBit 2
        = true ∧
    (gDup.cells ((0 : Fin 9), (1 : Fin 9))).testBit 2 = true :=
  ⟨by decide,
   (C7_monotonicity gDup 0 0).1.1 ((0 : Fin 9), (1 : Fin 9)) 2 (by decide) (by decide)⟩

/-- C8: every grid-producing operation preserves the invariant that
`solved_counter` counts the cells with the solved flag: `grid_zero`
establishes it, `read_grid` from the zero grid preserves it on accepted
input, `reduce` and `reduce_grid` preserve it when they do not return −1,
and the guess step of `try` (bump the counter and force the chosen cell)
preserves it at the branch point. -/
theorem C8_counter_invariant :
    Inv grid_zero ∧
    (∀ (input : List Nat) (g' : Grid),
      read_grid grid_zero input = some (g', true) → Inv g') ∧
    (∀ (g : Grid) (row col : Fin 9), WF g → Inv g → (reduce g row col).2 ≠ -1 →
      Inv (reduce g row col).1) ∧
    (∀ g : Grid, WF g → Inv g → (reduce_grid g).2 ≠ -1 → Inv (reduce_grid g).1) ∧
    (∀ (g wg : Grid) (k : Nat), reduceLoop g = some wg → WF g → Inv g →
      wg.solved_counter < 81 → Inv (guessGrid wg (choose_target_cell wg) k)) := by
  refine ⟨by decide, ?_, ?_, ?_, ?_⟩
  · intro input g' h
    exact (read_grid_pres input g' true h).2
  · intro g row col hWF hInv hok
    exact (reduce_preserve g row col hWF hok).2.1 hInv
  · intro g hWF hInv hok
    exact (reduce_grid_preserve g hWF hok).2.1 hInv
  · intro g wg k hloop hWF hInv hlt
    obtain ⟨hfixp, -, hpres⟩ := reduceLoop_some_spec g wg hloop
    obtain ⟨hWFw, hInvw, -⟩ := hpres hWF
    have hInvw' := hInvw hInv
    have hfixall := (reduce_grid_zero_fix wg (by rw [hfixp])).2
    exact guessGrid_Inv wg _ k hInvw'
      (fixpoint_target_unsolved wg hWFw hInvw' hfixall hlt)

theorem C8_counter_invariant_witness :
    (reduce gFull (0 : Fin 9) (0 : Fin 9)).2 ≠ -1 ∧
    Inv (reduce gFull (0 : Fin 9) (0 : Fin 9)).1 :=
  ⟨by decide, C8_counter_invariant.2.2.1 gFull 0 0 (by decide) (by decide) (by decide)⟩

/-- C9 counterexample: the NUL byte 0 is not a digit 1–9, a space, a hyphen
or a newline, yet when it stands at cell position 1 of row 0 the
`while ((in = getchar()))` condition exits the row loop and `read_grid`
returns success 1, not failure 0. -/
theorem C9_malformed_cex :
    (read_grid grid_zero [49, 0, 10, 10, 10, 10, 10, 10, 10, 10]).map Prod.snd =
      some true ∧
    allowedByte 0 = false ∧ (0 : Nat) ≠ 10 :=
  ⟨rfl, rfl, by decide⟩

/-- C9 (amended): for nine newline-terminated rows, none of which contains a
NUL or newline byte, if some row holds, among its first 9 byte positions (the
cell positions: every consumed byte advances the column counter `j` by one),
a byte other than a digit 1–9, a space or a hyphen, then `read_grid` returns
failure 0.  Rows may be arbitrarily long: bytes at positions ≥ 9 are skipped
by the `j >= COLS` leniency branch, and the NUL byte ends a row like a
newline (the counterexample), so only those two cases are excluded from the
original claim. -/
theorem C9_malformed_rejected (rows : List (List Nat)) (g : Grid)
    (hlen : rows.length = 9)
    (hok : ∀ r ∈ rows, ∀ c ∈ r, c ≠ 0 ∧ c ≠ 10)
    (hbad : ∃ r ∈ rows, ∃ (pre : List Nat) (c : Nat) (suf : List Nat),
      r = pre ++ c :: suf ∧ pre.length < 9 ∧ allowedByte c = false) :
    ∃ g', read_grid g (joinRows rows) = some (g', false) := by
  rw [read_grid]
  exact readRows_bad rows (List.finRange 9) g (by rw [hlen]; decide) hok hbad

theorem C9_malformed_rejected_witness :
    ∃ g', read_grid grid_zero
      (joinRows [[120, 45, 45, 45, 45, 45, 45, 45, 45, 45, 45],
                 [], [], [], [], [], [], [], []]) = some (g', false) :=
  C9_malformed_rejected
    [[120, 45, 45, 45, 45, 45, 45, 45, 45, 45, 45], [], [], [], [], [], [], [], []]
    grid_zero (by decide) (by decide)
    ⟨[120, 45, 45, 45, 45, 45, 45, 45, 45, 45, 45], by decide, [], 120,
     [45, 45, 45, 45, 45, 45, 45, 45, 45, 45], rfl, by decide, by decide⟩

/-- C10: at the branching step of `try` — the working grid is a fixpoint of
`reduce_grid` (the pass returned 0) with `solved_counter < 81` — the cell
returned by `choose_target_cell` is unsolved. -/
theorem C10_branch_target_unsolved (g : Grid) (hWF : WF g) (hInv : Inv g)
    (hfix : (reduce_grid g).2 = 0) (hlt : g.solved_counter < 81) :
    g.cells (choose_target_cell g) &&& SOLVED = 0 :=
  fixpoint_target_unsolved g hWF hInv (reduce_grid_zero_fix g hfix).2 hlt

theorem C10_branch_target_unsolved_witness :
    WF grid_zero ∧ Inv grid_zero ∧ (reduce_grid grid_zero).2 = 0 ∧
    grid_zero.solved_counter < 81 ∧
    grid_zero.cells (choose_target_cell grid_zero) &&& SOLVED = 0 :=
  ⟨by decide, by decide, by decide, by decide,
   C10_branch_target_unsolved grid_zero (by decide) (by decide) (by decide) (by decide)⟩

end Sud
